import Mathlib

/-!
Shallow embedding of `src/stegano-b64-padding.py`, a steganography tool that
hides secret bits inside the padding bits of Base64-encoded words.

Python strings and byte strings are modelled as `List Nat` of code points /
byte values.  Python's partial operations (`str.index`, list indexing, `int`
parsing, `chr`) are modelled by `Option`/`Except` results; Python slicing and
(possibly negative) indexing are modelled by `pyTake` / `pyGet`.  Exceptions
raised by the script are collected into the `Err` type.
-/

/-- Python `l[i]` for integer `i`: negative indices count from the end;
out-of-range indices raise `IndexError` (here: `none`).  No modular
wraparound beyond the single negative pass. -/
def pyGet (l : List Nat) (i : Int) : Option Nat :=
  if 0 ≤ i then
    if i < l.length then some (l.getD i.toNat 0) else none
  else
    if -(l.length : Int) ≤ i then some (l.getD (l.length - (-i).toNat) 0) else none

/-- Python slice `l[:i]` for integer `i` (negative `i` counts from the end,
results are clamped, never an error). -/
def pyTake {α : Type} (i : Int) (l : List α) : List α :=
  if 0 ≤ i then l.take i.toNat else l.take (l.length - (-i).toNat)

/-- Python `l.index(c)` / `str.index`: position of the first occurrence,
`ValueError` (here `none`) if absent. -/
def pyStrIndex (l : List Nat) (c : Nat) : Option Nat :=
  if c ∈ l then some (l.indexOf c) else none

/-- Line 23 of the source: the Base64 alphabet
`[chr(x) for x in range(65,91)] + [chr(x) for x in range(97,123)] +
 [chr(x) for x in range(48,58)] + ['+','/']`. -/
def b64dict : List Nat :=
  List.range' 65 26 ++ List.range' 97 26 ++ List.range' 48 10 ++ [43, 47]

/-- Character of the alphabet at a (known in-range) position. -/
def dChar (i : Nat) : Nat := b64dict.getD i 0

/-- Python `bin(n)[2:]` / `"{0:b}".format(n)` for a natural number:
minimal-length big-endian binary digit characters (`'0' = 48`, `'1' = 49`);
`bin(0)[2:] = "0"`. -/
def natBinF : Nat → Nat → List Nat
  | _, 0 => [48]
  | _, 1 => [49]
  | 0, _ => []
  | f + 1, n + 2 => natBinF f ((n + 2) / 2) ++ [(n + 2) % 2 + 48]

/-- Python `bin(n)[2:]` again; the first argument of `natBinF` is structural
fuel, always sufficient because the number of binary digits of `n` is at
most `n` for `n ≥ 1`. -/
def natBin (n : Nat) : List Nat := natBinF n n

/-- Value of a list of binary digit characters (most significant first). -/
def digitsVal (l : List Nat) : Nat := l.foldl (fun a c => 2 * a + (c - 48)) 0

/-- All characters are binary digits `'0'`/`'1'`. -/
def isBits (l : List Nat) : Bool := l.all (fun c => c == 48 || c == 49)

/-- Python `int(s, 2)` on the strings this program can produce: an optional
leading `'-'` (45) followed by at least one binary digit; anything else
raises `ValueError` (here `none`). -/
def parseBin (l : List Nat) : Option Int :=
  match l with
  | [] => none
  | c :: rest =>
    if c = 45 then
      if rest ≠ [] ∧ isBits rest then some (-(digitsVal rest : Int)) else none
    else
      if isBits (c :: rest) then some ((digitsVal (c :: rest) : Nat) : Int) else none

/-- Python `str.zfill(k)`: left-pad with `'0'` up to width `k`, keeping a
leading sign character in front of the padding. -/
def zfill (k : Nat) (s : List Nat) : List Nat :=
  match s with
  | [] => List.replicate k 48
  | c :: rest =>
    if c = 45 ∨ c = 43 then c :: (List.replicate (k - s.length) 48 ++ rest)
    else List.replicate (k - s.length) 48 ++ s

/-- Python `"{0:b}".format(v)` for an integer. -/
def intBin (v : Int) : List Nat :=
  if v < 0 then 45 :: natBin v.natAbs else natBin v.toNat

/-- Standard Base64 encoding of a byte string (`base64.b64encode`),
producing the character string including `'='` (61) padding. -/
def b64encode : List Nat → List Nat
  | [] => []
  | [a] => [dChar (a / 4), dChar (a % 4 * 16), 61, 61]
  | [a, b] => [dChar (a / 4), dChar (a % 4 * 16 + b / 16), dChar (b % 16 * 4), 61]
  | a :: b :: c :: rest =>
      dChar (a / 4) :: dChar (a % 4 * 16 + b / 16) :: dChar (b % 16 * 4 + c / 64) ::
        dChar (c % 64) :: b64encode rest

/-- Byte string recovered from a list of 6-bit symbol values, 4 symbols per
3 bytes; a trailing group of 2 (resp. 3) symbols yields 1 (resp. 2) bytes,
discarding the leftover low bits exactly as `binascii` does. -/
def symsToBytes : List Nat → List Nat
  | s0 :: s1 :: s2 :: s3 :: rest =>
      (s0 * 4 + s1 / 16) :: (s1 % 16 * 16 + s2 / 4) :: (s2 % 4 * 64 + s3) :: symsToBytes rest
  | [s0, s1] => [s0 * 4 + s1 / 16]
  | [s0, s1, s2] => [s0 * 4 + s1 / 16, s1 % 16 * 16 + s2 / 4]
  | _ => []

/-- `base64.b64decode` on the well-formed tokens this program handles:
padding characters are dropped, the remaining characters are mapped to their
alphabet positions and regrouped into bytes.  (Python's decoder silently
discards the unused low bits of the final symbol — the property this whole
scheme relies on.) -/
def b64decode (w : List Nat) : List Nat :=
  symsToBytes ((w.filter (fun c => c != 61)).map (fun c => b64dict.indexOf c))

/-- Source lines 25–40, `encode_word(word, secret)`: hide the bit-group
`g` in the last body character of Base64 token `word` by an alphabet offset.
`none` models the Python exceptions (`ValueError` from `.index`/`int`,
`IndexError` from the unguarded `dict[...]` lookup). -/
def encode_word (word g : List Nat) : Option (List Nat) :=
  (pyStrIndex word 61).bind fun fe =>
  (pyGet word ((fe : Int) - 1)).bind fun tm =>
  (parseBin g).bind fun delta =>
  (pyStrIndex b64dict tm).bind fun di =>
  (pyGet b64dict ((di : Int) + delta)).bind fun ec =>
  some (pyTake ((fe : Int) - 1) word ++ ec :: List.replicate (word.length - fe) 61)

/-- Source lines 42–58, `decode_word(word)`: recover the hidden bit-group by
comparing the actual character before the first `'='` with the character at
that position in `b64encode(b64decode(word))`. -/
def decode_word (word : List Nat) : Option (List Nat) :=
  (pyStrIndex word 61).bind fun fe =>
  (pyGet word ((fe : Int) - 1)).bind fun ec =>
  (pyGet (b64encode (b64decode word)) ((fe : Int) - 1)).bind fun bc =>
  (pyStrIndex b64dict ec).bind fun i1 =>
  (pyStrIndex b64dict bc).bind fun i2 =>
  some (zfill (2 * word.count 61) (intBin ((i1 : Int) - (i2 : Int))))

/-- Source lines 60–73, `count_equals(word_list)`: twice the total number of
`'='` characters in the token list. -/
def count_equals (ws : List (List Nat)) : Nat :=
  2 * ws.foldl (fun a w => a + w.count 61) 0

/-- Python `text.split(' ')`: split on every single space, keeping empty
pieces (`"".split(' ') = ['']`). -/
def splitSpace : List Nat → List (List Nat)
  | [] => [[]]
  | c :: rest =>
    match splitSpace rest with
    | [] => [[c]]
    | w :: ws => if c = 32 then [] :: w :: ws else (c :: w) :: ws

/-- The exceptions the script can raise. -/
inductive Err
  | unicodeError
  | valueError
  | indexError
deriving DecidableEq

/-- The token-rewriting loop of `encode` (source lines 99–106): tokens with
padding consume the next `2 × padding_count` bits of the framed stream. -/
def encodeLoop : List (List Nat) → List Nat → Option (List (List Nat))
  | [], _ => some []
  | w :: ws, bits =>
    if 0 < w.count 61 then
      match encode_word w (bits.take (2 * w.count 61)) with
      | none => none
      | some w2 =>
        match encodeLoop ws (bits.drop (2 * w.count 61)) with
        | none => none
        | some rest => some (w2 :: rest)
    else
      match encodeLoop ws bits with
      | none => none
      | some rest => some (w :: rest)

/-- Source lines 95–98 (before zero-fill): 16-bit length prefix followed by
`bin(ord(char))[2:].zfill(7)` for each secret character. -/
def frameBits (secret : List Nat) : List Nat :=
  zfill 16 (natBin secret.length) ++ (secret.map (fun c => zfill 7 (natBin c))).flatten

/-- Source lines 75–107, `encode(text, secret)`: split the carrier into
words, Base64-encode each word plus a trailing space, check capacity, frame
the secret and drive `encode_word` across the padded tokens.
`Err.unicodeError` models the `UnicodeEncodeError` of `.encode('ascii')`,
`Err.valueError` the explicit capacity `ValueError`, and `Err.indexError`
an out-of-range alphabet lookup escaping `encode_word`. -/
def encode (text secret : List Nat) : Except Err (List (List Nat)) :=
  let words := splitSpace text
  if words.all (fun w => w.all (fun c => c < 128)) then
    let words_b64 := words.map (fun w => b64encode (w ++ [32]))
    let secret_max_length := count_equals words_b64
    if secret_max_length < 7 * secret.length + 16 then .error Err.valueError
    else
      let bin0 := frameBits secret
      let bits := bin0 ++ List.replicate (secret_max_length - bin0.length) 48
      match encodeLoop words_b64 bits with
      | some l => .ok l
      | none => .error Err.indexError
  else .error Err.unicodeError

/-- The accumulation loop of `decode` (source lines 119–124): collect the
extracted bit-groups and the concatenation of the plain decodings.  `none`
models a Python exception inside the loop (from `decode_word` or from
`.decode('ascii')` on a byte ≥ 128). -/
def decodeLoop : List (List Nat) → Option (List Nat × List Nat)
  | [] => some ([], [])
  | w :: ws =>
    match (if 0 < w.count 61 then decode_word w else some []) with
    | none => none
    | some b =>
      let d := b64decode w
      if d.all (fun c => c < 128) then
        match decodeLoop ws with
        | none => none
        | some (rb, rd) => some (b ++ rb, d ++ rd)
      else none

/-- Python `re.findall('.{7}', s)`: the consecutive complete 7-character
chunks, the remainder dropped. -/
def chunks7 : List Nat → List (List Nat)
  | a :: b :: c :: d :: e :: f :: g :: rest => [a, b, c, d, e, f, g] :: chunks7 rest
  | _ => []

/-- `''.join(chr(int(letter, 2)) for letter in ...)` (source line 128):
parse each 7-character chunk as a binary number and take the character with
that code; `chr` of a negative number raises `ValueError`. -/
def readChars : List (List Nat) → Except Err (List Nat)
  | [] => .ok []
  | ch :: rest =>
    match parseBin ch with
    | none => .error Err.valueError
    | some v =>
      if v < 0 then .error Err.valueError
      else
        match readChars rest with
        | .ok l => .ok (v.toNat :: l)
        | .error e => .error e

/-- Source lines 109–129, `decode(encoded_list)`: accumulate the bit-groups
and the decoded carrier, read the 16-bit length prefix, then decode that
many 7-bit groups as secret characters.  Returns `(secret, carrier)`. -/
def decode (tokens : List (List Nat)) : Except Err (List Nat × List Nat) :=
  match decodeLoop tokens with
  | none => .error Err.valueError
  | some (bits, carrier) =>
    match parseBin (bits.take 16) with
    | none => .error Err.valueError
    | some len =>
      match readChars (pyTake len (chunks7 (bits.drop 16))) with
      | .ok s => .ok (s, carrier)
      | .error e => .error e

/-- The carrier capacity the program computes at source line 88:
`count_equals` over the Base64 tokens of the words (plus trailing space). -/
def total_capacity (text : List Nat) : Nat :=
  count_equals ((splitSpace text).map (fun w => b64encode (w ++ [32])))

/-- Big-endian binary rendering of `v` in exactly `k` digit characters
(the shape `bin(v)[2:].zfill(k)` takes when `v < 2^k`). -/
def padBin : Nat → Nat → List Nat
  | 0, _ => []
  | k + 1, v => padBin k (v / 2) ++ [v % 2 + 48]

/-- A carrier made of `n+1` copies of the word `"abc"` separated by single
spaces (used to build concrete large carriers). -/
def rep3 : Nat → List Nat
  | 0 => [97, 98, 99]
  | n + 1 => 97 :: 98 :: 99 :: 32 :: rep3 n

/-! ## Binary digit strings -/

theorem digitsVal_from (l : List Nat) (i : Nat) :
    l.foldl (fun a c => 2 * a + (c - 48)) i = i * 2 ^ l.length + digitsVal l := by
  induction l generalizing i with
  | nil => simp [digitsVal]
  | cons c t ih =>
    simp only [List.foldl_cons, List.length_cons, digitsVal]
    rw [ih (2 * i + (c - 48)), ih (2 * 0 + (c - 48))]
    ring

theorem digitsVal_cons (c : Nat) (t : List Nat) :
    digitsVal (c :: t) = (c - 48) * 2 ^ t.length + digitsVal t := by
  have h := digitsVal_from t (c - 48)
  simpa [digitsVal] using h

theorem digitsVal_append (a b : List Nat) :
    digitsVal (a ++ b) = digitsVal a * 2 ^ b.length + digitsVal b := by
  have h := digitsVal_from b (digitsVal a)
  simpa [digitsVal, List.foldl_append] using h

theorem digitsVal_concat (l : List Nat) (c : Nat) :
    digitsVal (l ++ [c]) = 2 * digitsVal l + (c - 48) := by
  rw [digitsVal_append]
  simp [digitsVal]
  ring

theorem isBits_mem {l : List Nat} (h : isBits l = true) {c : Nat} (hc : c ∈ l) :
    c = 48 ∨ c = 49 := by
  have := List.all_eq_true.mp h c hc
  rcases eq_or_ne c 48 with h48 | h48
  · exact Or.inl h48
  · right
    simpa [h48] using this

theorem isBits_of_forall {l : List Nat} (h : ∀ c ∈ l, c = 48 ∨ c = 49) :
    isBits l = true := by
  apply List.all_eq_true.mpr
  intro c hc
  rcases h c hc with rfl | rfl <;> simp

theorem isBits_append {a b : List Nat} (ha : isBits a = true) (hb : isBits b = true) :
    isBits (a ++ b) = true := by
  simp only [isBits, List.all_append, Bool.and_eq_true]
  exact ⟨ha, hb⟩

theorem isBits_take {l : List Nat} (h : isBits l = true) (n : Nat) :
    isBits (l.take n) = true :=
  isBits_of_forall fun _c hc => isBits_mem h (List.mem_of_mem_take hc)

theorem isBits_drop {l : List Nat} (h : isBits l = true) (n : Nat) :
    isBits (l.drop n) = true :=
  isBits_of_forall fun _c hc => isBits_mem h (List.mem_of_mem_drop hc)

theorem isBits_replicate (n : Nat) : isBits (List.replicate n 48) = true :=
  isBits_of_forall fun _c hc => Or.inl (List.mem_replicate.mp hc).2

theorem digitsVal_lt {l : List Nat} (h : isBits l = true) :
    digitsVal l < 2 ^ l.length := by
  induction l with
  | nil => simp [digitsVal]
  | cons c t ih =>
    have hc : c = 48 ∨ c = 49 := isBits_mem h (by simp)
    have ht : isBits t = true := isBits_of_forall fun x hx => isBits_mem h (by simp [hx])
    have h1 : digitsVal t < 2 ^ t.length := ih ht
    have h2 : c - 48 ≤ 1 := by rcases hc with rfl | rfl <;> simp
    rw [digitsVal_cons]
    have : (c - 48) * 2 ^ t.length ≤ 2 ^ t.length := by
      calc (c - 48) * 2 ^ t.length ≤ 1 * 2 ^ t.length :=
            Nat.mul_le_mul_right _ h2
        _ = 2 ^ t.length := by ring
    calc (c - 48) * 2 ^ t.length + digitsVal t < 2 ^ t.length + 2 ^ t.length := by omega
      _ = 2 ^ (t.length + 1) := by ring
      _ = 2 ^ (c :: t).length := by simp

theorem padBin_length (k v : Nat) : (padBin k v).length = k := by
  induction k generalizing v with
  | zero => simp [padBin]
  | succ k ih => simp [padBin, ih]

theorem padBin_isBits (k v : Nat) : isBits (padBin k v) = true := by
  induction k generalizing v with
  | zero => simp [padBin, isBits]
  | succ k ih =>
    apply isBits_of_forall
    intro c hc
    simp only [padBin, List.mem_append, List.mem_singleton] at hc
    rcases hc with hc | rfl
    · exact isBits_mem (ih (v / 2)) hc
    · have : v % 2 < 2 := Nat.mod_lt _ (by omega)
      omega

theorem digitsVal_padBin {k v : Nat} (h : v < 2 ^ k) : digitsVal (padBin k v) = v := by
  induction k generalizing v with
  | zero => simp [padBin, digitsVal]; omega
  | succ k ih =>
    have hdiv : v / 2 < 2 ^ k := by
      have : 2 ^ (k + 1) = 2 ^ k * 2 := by ring
      omega
    rw [padBin, digitsVal_concat, ih hdiv]
    omega

theorem padBin_digitsVal {g : List Nat} (h : isBits g = true) :
    padBin g.length (digitsVal g) = g := by
  induction g using List.reverseRecOn with
  | nil => simp [padBin, digitsVal]
  | append_singleton xs c ih =>
    have hc : c = 48 ∨ c = 49 := isBits_mem h (by simp)
    have hxs : isBits xs = true :=
      isBits_of_forall fun x hx => isBits_mem h (by simp [hx])
    have hlen : (xs ++ [c]).length = xs.length + 1 := by simp
    have hval : digitsVal (xs ++ [c]) = 2 * digitsVal xs + (c - 48) :=
      digitsVal_concat xs c
    rw [hlen, hval, padBin]
    have hc1 : c - 48 ≤ 1 := by rcases hc with rfl | rfl <;> simp
    have hdiv : (2 * digitsVal xs + (c - 48)) / 2 = digitsVal xs := by omega
    have hmod : (2 * digitsVal xs + (c - 48)) % 2 = c - 48 := by omega
    rw [hdiv, hmod, ih hxs]
    rcases hc with rfl | rfl <;> simp

theorem padBin_zero (k : Nat) : padBin k 0 = List.replicate k 48 := by
  induction k with
  | zero => simp [padBin]
  | succ k ih =>
    rw [padBin, Nat.zero_div, ih]
    have : List.replicate (k + 1) 48 = List.replicate k 48 ++ [48] := by
      rw [← List.replicate_succ']
    simp [this]

theorem natBinF_fuel {n : Nat} : ∀ {f g : Nat}, n ≤ f → n ≤ g → natBinF f n = natBinF g n := by
  induction n using Nat.strong_induction_on with
  | _ n ih =>
    intro f g hf hg
    rcases n with _ | ⟨_ | n⟩
    · simp [natBinF]
    · simp [natBinF]
    · rcases f with _ | f
      · omega
      rcases g with _ | g
      · omega
      simp only [natBinF]
      congr 1
      exact ih ((n + 2) / 2) (by omega) (by omega) (by omega)

theorem natBin_zero : natBin 0 = [48] := rfl

theorem natBin_one : natBin 1 = [49] := rfl

theorem natBin_eq_of_two_le {v : Nat} (h : 2 ≤ v) :
    natBin v = natBin (v / 2) ++ [v % 2 + 48] := by
  obtain ⟨n, rfl⟩ : ∃ n, v = n + 2 := ⟨v - 2, by omega⟩
  show natBinF (n + 2) (n + 2) = _
  rw [natBinF]
  congr 1
  exact natBinF_fuel (by omega) (by omega)

theorem natBin_isBits (v : Nat) : isBits (natBin v) = true := by
  induction v using Nat.strong_induction_on with
  | _ v ih =>
    rcases v with _ | ⟨_ | n⟩
    · decide
    · decide
    · rw [natBin_eq_of_two_le (by omega)]
      apply isBits_append (ih _ (by omega))
      apply isBits_of_forall
      intro c hc
      simp only [List.mem_singleton] at hc
      have : (n + 2) % 2 < 2 := Nat.mod_lt _ (by omega)
      omega

theorem natBin_ne_nil (v : Nat) : natBin v ≠ [] := by
  rcases v with _ | ⟨_ | n⟩
  · decide
  · decide
  · rw [natBin_eq_of_two_le (by omega)]
    simp

theorem digitsVal_natBin (v : Nat) : digitsVal (natBin v) = v := by
  induction v using Nat.strong_induction_on with
  | _ v ih =>
    rcases v with _ | ⟨_ | n⟩
    · decide
    · decide
    · rw [natBin_eq_of_two_le (by omega), digitsVal_concat, ih _ (by omega)]
      omega

theorem natBin_length_le {v k : Nat} (hv : v < 2 ^ k) (hk : 1 ≤ k) :
    (natBin v).length ≤ k := by
  induction v using Nat.strong_induction_on generalizing k with
  | _ v ih =>
    rcases v with _ | ⟨_ | n⟩
    · simpa [natBin_zero] using hk
    · simpa [natBin_one] using hk
    · rw [natBin_eq_of_two_le (by omega)]
      have h2 : 2 ≤ k := by
        by_contra hlt
        interval_cases k
        omega
      have hdiv : (n + 2) / 2 < 2 ^ (k - 1) := by
        have : 2 ^ k = 2 ^ (k - 1) * 2 := by
          rw [← pow_succ]
          congr 1
          omega
        omega
      have := ih ((n + 2) / 2) (by omega) hdiv (by omega)
      simp only [List.length_append, List.length_singleton,
        show n + 1 + 1 = n + 2 from rfl]
      omega

theorem zfill_digits {s : List Nat} (h : isBits s = true) (hne : s ≠ []) (k : Nat) :
    zfill k s = List.replicate (k - s.length) 48 ++ s := by
  match s, hne with
  | c :: rest, _ =>
    have hc : c = 48 ∨ c = 49 := isBits_mem h (by simp)
    rw [zfill]
    have : ¬(c = 45 ∨ c = 43) := by omega
    simp [this]

theorem replicate_natBin_eq_padBin {k v : Nat} (hv : v < 2 ^ k) (hk : 1 ≤ k) :
    List.replicate (k - (natBin v).length) 48 ++ natBin v = padBin k v := by
  induction k generalizing v with
  | zero => omega
  | succ k ih =>
    rcases Nat.lt_or_ge v 2 with hv2 | hv2
    · have hbase : natBin v = [v % 2 + 48] := by
        interval_cases v
        · decide
        · decide
      rw [hbase, padBin, Nat.div_eq_of_lt hv2, padBin_zero]
      simp
    · have hk1 : 1 ≤ k := by
        by_contra hlt
        have : k = 0 := by omega
        subst this
        simp at hv
        omega
      rw [natBin_eq_of_two_le hv2]
      have hdiv : v / 2 < 2 ^ k := by
        have : 2 ^ (k + 1) = 2 ^ k * 2 := by ring
        omega
      rw [padBin, ← ih hdiv hk1]
      have hlen : (natBin (v / 2) ++ [v % 2 + 48]).length = (natBin (v / 2)).length + 1 := by
        simp
      rw [hlen]
      have : k + 1 - ((natBin (v / 2)).length + 1) = k - (natBin (v / 2)).length := by omega
      rw [this, List.append_assoc]

theorem zfill_natBin {v k : Nat} (hv : v < 2 ^ k) (hk : 1 ≤ k) :
    zfill k (natBin v) = padBin k v := by
  rw [zfill_digits (natBin_isBits v) (natBin_ne_nil v)]
  exact replicate_natBin_eq_padBin hv hk

theorem zfill_length_of_digits {s : List Nat} (h : isBits s = true) (hne : s ≠ []) (k : Nat) :
    (zfill k s).length = max k s.length := by
  rw [zfill_digits h hne]
  simp
  omega

theorem parseBin_digits {l : List Nat} (h : isBits l = true) (hne : l ≠ []) :
    parseBin l = some ((digitsVal l : Nat) : Int) := by
  match l, hne with
  | c :: rest, _ =>
    have hc : c = 48 ∨ c = 49 := isBits_mem h (by simp)
    rw [parseBin]
    have h45 : ¬(c = 45) := by omega
    simp only [h45, if_false, h, if_true]

theorem parseBin_padBin {k v : Nat} (hv : v < 2 ^ k) (hk : 1 ≤ k) :
    parseBin (padBin k v) = some ((v : Nat) : Int) := by
  have hne : padBin k v ≠ [] := by
    have := padBin_length k v
    intro hx
    rw [hx] at this
    simp at this
    omega
  rw [parseBin_digits (padBin_isBits k v) hne, digitsVal_padBin hv]

/-! ## The Base64 alphabet -/

theorem dChar_indexOf : ∀ i < 64, b64dict.indexOf (dChar i) = i := by decide

theorem dChar_ne_61 : ∀ i < 64, dChar i ≠ 61 := by decide

theorem dChar_mem : ∀ i < 64, dChar i ∈ b64dict := by decide

theorem b64dict_length : b64dict.length = 64 := by decide

theorem pyStrIndex_dChar {i : Nat} (h : i < 64) :
    pyStrIndex b64dict (dChar i) = some i := by
  rw [pyStrIndex, if_pos (dChar_mem i h), dChar_indexOf i h]

theorem pyGet_b64dict {i : Nat} (h : i < 64) :
    pyGet b64dict ((i : Nat) : Int) = some (dChar i) := by
  rw [pyGet, if_pos (by positivity)]
  rw [if_pos]
  · simp [dChar]
  · rw [b64dict_length]
    exact_mod_cast h

theorem pyGet_nonneg {l : List Nat} {i : Int} (h0 : 0 ≤ i) (h1 : i < l.length) :
    pyGet l i = some (l.getD i.toNat 0) := by
  rw [pyGet, if_pos h0, if_pos h1]

theorem pyTake_nonneg {α : Type} {i : Int} (h : 0 ≤ i) (l : List α) :
    pyTake i l = l.take i.toNat := by
  rw [pyTake, if_pos h]

/-! ## Structure of canonical Base64 tokens -/

theorem encode_word_eq {word g : List Nat} {fe tm di ec : Nat} {delta : Int}
    (h1 : pyStrIndex word 61 = some fe)
    (h2 : pyGet word ((fe : Int) - 1) = some tm)
    (h3 : parseBin g = some delta)
    (h4 : pyStrIndex b64dict tm = some di)
    (h5 : pyGet b64dict ((di : Int) + delta) = some ec) :
    encode_word word g =
      some (pyTake ((fe : Int) - 1) word ++ ec :: List.replicate (word.length - fe) 61) := by
  simp only [encode_word, h1, h2, h3, h4, h5, Option.some_bind]

theorem decode_word_eq {word : List Nat} {fe ec bc i1 i2 : Nat}
    (h1 : pyStrIndex word 61 = some fe)
    (h2 : pyGet word ((fe : Int) - 1) = some ec)
    (h3 : pyGet (b64encode (b64decode word)) ((fe : Int) - 1) = some bc)
    (h4 : pyStrIndex b64dict ec = some i1)
    (h5 : pyStrIndex b64dict bc = some i2) :
    decode_word word = some (zfill (2 * word.count 61) (intBin ((i1 : Int) - (i2 : Int)))) := by
  simp only [decode_word, h1, h2, h3, h4, h5, Option.some_bind]

theorem indexOf61_cons {x : Nat} (hx : x ≠ 61) (t : List Nat) :
    (x :: t).indexOf 61 = t.indexOf 61 + 1 := by
  simp [List.indexOf_cons, hx]

theorem count61_cons {x : Nat} (hx : x ≠ 61) (t : List Nat) :
    (x :: t).count 61 = t.count 61 := by
  simp [List.count_cons, hx]

theorem count61_b64encode {bs : List Nat} (h : bs.all (fun c => c < 256) = true) :
    (b64encode bs).count 61 = if bs.length % 3 = 0 then 0 else 3 - bs.length % 3 := by
  induction bs using b64encode.induct with
  | case1 => simp [b64encode]
  | case2 a =>
    have ha : a < 256 := by simpa using h
    have h1 : dChar (a / 4) ≠ 61 := dChar_ne_61 _ (by omega)
    have h2 : dChar (a % 4 * 16) ≠ 61 := dChar_ne_61 _ (by omega)
    rw [b64encode, count61_cons h1, count61_cons h2]
    simp
  | case3 a b =>
    have hab : a < 256 ∧ b < 256 := by simpa using h
    have h1 : dChar (a / 4) ≠ 61 := dChar_ne_61 _ (by omega)
    have h2 : dChar (a % 4 * 16 + b / 16) ≠ 61 := dChar_ne_61 _ (by omega)
    have h3 : dChar (b % 16 * 4) ≠ 61 := dChar_ne_61 _ (by omega)
    rw [b64encode, count61_cons h1, count61_cons h2, count61_cons h3]
    simp
  | case4 a b c rest ih =>
    have habc : a < 256 ∧ b < 256 ∧ c < 256 ∧ rest.all (fun x => x < 256) = true := by
      simpa using h
    obtain ⟨ha, hb, hc, hrest⟩ := habc
    have h1 : dChar (a / 4) ≠ 61 := dChar_ne_61 _ (by omega)
    have h2 : dChar (a % 4 * 16 + b / 16) ≠ 61 := dChar_ne_61 _ (by omega)
    have h3 : dChar (b % 16 * 4 + c / 64) ≠ 61 := dChar_ne_61 _ (by omega)
    have h4 : dChar (c % 64) ≠ 61 := dChar_ne_61 _ (by omega)
    rw [b64encode, count61_cons h1, count61_cons h2, count61_cons h3, count61_cons h4, ih hrest]
    have : (a :: b :: c :: rest).length % 3 = rest.length % 3 := by
      simp [List.length_cons]
      omega
    rw [this]

theorem mem61_b64encode {bs : List Nat} (h : bs.all (fun c => c < 256) = true)
    (h3 : bs.length % 3 ≠ 0) : 61 ∈ b64encode bs := by
  have hc := count61_b64encode h
  rw [if_neg h3] at hc
  have hlt : bs.length % 3 < 3 := Nat.mod_lt _ (by omega)
  have : 0 < (b64encode bs).count 61 := by omega
  exact List.count_pos_iff.mp this

theorem b64encode_head {bs : List Nat} (hne : bs ≠ []) (h : bs.all (fun c => c < 256) = true) :
    ∃ x t, b64encode bs = x :: t ∧ x = dChar (bs.headI / 4) ∧ x ≠ 61 := by
  have hhead : bs.headI < 256 := by
    match bs, hne with
    | a :: rest, _ =>
      have : a < 256 := by
        have := List.all_eq_true.mp h a (by simp)
        simpa using this
      simpa using this
  have hx : dChar (bs.headI / 4) ≠ 61 := dChar_ne_61 _ (by omega)
  match bs, hne with
  | [a], _ => exact ⟨_, _, rfl, rfl, hx⟩
  | [a, b], _ => exact ⟨_, _, rfl, rfl, hx⟩
  | a :: b :: c :: rest, _ => exact ⟨_, _, rfl, rfl, hx⟩

theorem indexOf61_b64encode_pos {bs : List Nat} (hne : bs ≠ [])
    (h : bs.all (fun c => c < 256) = true) : 1 ≤ (b64encode bs).indexOf 61 := by
  obtain ⟨x, t, heq, _, hx⟩ := b64encode_head hne h
  rw [heq, indexOf61_cons hx]
  omega

theorem filter61_cons_ne {x : Nat} (hx : x ≠ 61) (t : List Nat) :
    (x :: t).filter (fun c => c != 61) = x :: t.filter (fun c => c != 61) := by
  simp [List.filter_cons, hx]

theorem filter61_cons_61 (t : List Nat) :
    (61 :: t).filter (fun c => c != 61) = t.filter (fun c => c != 61) := by
  simp [List.filter_cons]

theorem b64decode_b64encode {bs : List Nat} (h : bs.all (fun c => c < 256) = true) :
    b64decode (b64encode bs) = bs := by
  induction bs using b64encode.induct with
  | case1 => rfl
  | case2 a =>
    have ha : a < 256 := by simpa using h
    have h1 : dChar (a / 4) ≠ 61 := dChar_ne_61 _ (by omega)
    have h2 : dChar (a % 4 * 16) ≠ 61 := dChar_ne_61 _ (by omega)
    rw [b64decode, b64encode, filter61_cons_ne h1, filter61_cons_ne h2, filter61_cons_61,
      filter61_cons_61]
    simp only [List.filter_nil, List.map_cons, List.map_nil]
    rw [dChar_indexOf _ (by omega), dChar_indexOf _ (by omega)]
    show [a / 4 * 4 + a % 4 * 16 / 16] = [a]
    have : a / 4 * 4 + a % 4 * 16 / 16 = a := by omega
    rw [this]
  | case3 a b =>
    have hab : a < 256 ∧ b < 256 := by simpa using h
    obtain ⟨ha, hb⟩ := hab
    have h1 : dChar (a / 4) ≠ 61 := dChar_ne_61 _ (by omega)
    have h2 : dChar (a % 4 * 16 + b / 16) ≠ 61 := dChar_ne_61 _ (by omega)
    have h3 : dChar (b % 16 * 4) ≠ 61 := dChar_ne_61 _ (by omega)
    rw [b64decode, b64encode, filter61_cons_ne h1, filter61_cons_ne h2, filter61_cons_ne h3,
      filter61_cons_61]
    simp only [List.filter_nil, List.map_cons, List.map_nil]
    rw [dChar_indexOf _ (by omega), dChar_indexOf _ (by omega), dChar_indexOf _ (by omega)]
    show [a / 4 * 4 + (a % 4 * 16 + b / 16) / 16,
          (a % 4 * 16 + b / 16) % 16 * 16 + b % 16 * 4 / 4] = [a, b]
    have e1 : a / 4 * 4 + (a % 4 * 16 + b / 16) / 16 = a := by omega
    have e2 : (a % 4 * 16 + b / 16) % 16 * 16 + b % 16 * 4 / 4 = b := by omega
    rw [e1, e2]
  | case4 a b c rest ih =>
    have habc : a < 256 ∧ b < 256 ∧ c < 256 ∧ rest.all (fun x => x < 256) = true := by
      simpa using h
    obtain ⟨ha, hb, hc, hrest⟩ := habc
    have h1 : dChar (a / 4) ≠ 61 := dChar_ne_61 _ (by omega)
    have h2 : dChar (a % 4 * 16 + b / 16) ≠ 61 := dChar_ne_61 _ (by omega)
    have h3 : dChar (b % 16 * 4 + c / 64) ≠ 61 := dChar_ne_61 _ (by omega)
    have h4 : dChar (c % 64) ≠ 61 := dChar_ne_61 _ (by omega)
    rw [b64decode, b64encode, filter61_cons_ne h1, filter61_cons_ne h2, filter61_cons_ne h3,
      filter61_cons_ne h4]
    simp only [List.map_cons]
    rw [dChar_indexOf _ (by omega), dChar_indexOf _ (by omega), dChar_indexOf _ (by omega),
      dChar_indexOf _ (by omega)]
    rw [symsToBytes]
    have e1 : a / 4 * 4 + (a % 4 * 16 + b / 16) / 16 = a := by omega
    have e2 : (a % 4 * 16 + b / 16) % 16 * 16 + (b % 16 * 4 + c / 64) / 4 = b := by omega
    have e3 : (b % 16 * 4 + c / 64) % 4 * 64 + c % 64 = c := by omega
    rw [e1, e2, e3, ← b64decode, ih hrest]

theorem int_sub_self_add (m d : Nat) : ((m + d : Nat) : Int) - ((m : Nat) : Int) = (d : Int) := by
  push_cast
  ring

theorem intBin_natCast (d : Nat) : intBin ((d : Nat) : Int) = natBin d := by
  rw [intBin, if_neg (not_lt.mpr (Int.natCast_nonneg d))]
  simp

theorem bundle_base1 {a : Nat} (ha : a < 256) {g : List Nat} (hg : isBits g = true)
    (hgl : g.length = 4) :
    ∃ t2, encode_word (b64encode [a]) g = some t2 ∧ decode_word t2 = some g ∧
      b64decode t2 = [a] ∧ t2.count 61 = 2 ∧ 1 ≤ t2.indexOf 61 := by
  set s1 := a % 4 * 16 with hs1
  have hs1lt : s1 ≤ 48 := by omega
  have hdg : digitsVal g < 16 := by
    have := digitsVal_lt hg
    rw [hgl] at this
    simpa using this
  have h1 : dChar (a / 4) ≠ 61 := dChar_ne_61 _ (by omega)
  have h2 : dChar s1 ≠ 61 := dChar_ne_61 _ (by omega)
  have h2' : dChar (s1 + digitsVal g) ≠ 61 := dChar_ne_61 _ (by omega)
  have hgne : g ≠ [] := by
    intro hx
    rw [hx] at hgl
    simp at hgl
  -- the canonical token
  have htok : b64encode [a] = [dChar (a / 4), dChar s1, 61, 61] := by rw [b64encode]
  -- encode_word
  have hmem : 61 ∈ b64encode [a] := by rw [htok]; simp
  have hidx : (b64encode [a]).indexOf 61 = 2 := by
    rw [htok, indexOf61_cons h1, indexOf61_cons h2]
    simp [List.indexOf_cons]
  have hfe : pyStrIndex (b64encode [a]) 61 = some 2 := by
    rw [pyStrIndex, if_pos hmem, hidx]
  have hix1 : ((2 : Nat) : Int) - 1 = ((1 : Nat) : Int) := by norm_num
  have htm : pyGet (b64encode [a]) (((2 : Nat) : Int) - 1) = some (dChar s1) := by
    rw [hix1, pyGet_nonneg (by positivity) (by rw [htok]; simp)]
    rw [htok]
    simp
  have hparse : parseBin g = some ((digitsVal g : Nat) : Int) := parseBin_digits hg hgne
  have hdi : pyStrIndex b64dict (dChar s1) = some s1 := pyStrIndex_dChar (by omega)
  have hcast : ((s1 : Nat) : Int) + ((digitsVal g : Nat) : Int) =
      (((s1 + digitsVal g : Nat)) : Int) := by push_cast; ring
  have hec : pyGet b64dict (((s1 : Nat) : Int) + ((digitsVal g : Nat) : Int)) =
      some (dChar (s1 + digitsVal g)) := by
    rw [hcast]
    exact pyGet_b64dict (by omega)
  have henc := encode_word_eq hfe htm hparse hdi hec
  have htake : pyTake (((2 : Nat) : Int) - 1) (b64encode [a]) = [dChar (a / 4)] := by
    rw [hix1, pyTake_nonneg (by positivity), htok]
    simp
  have hlen : (b64encode [a]).length = 4 := by rw [htok]; rfl
  rw [htake, hlen] at henc
  set t2 := [dChar (a / 4), dChar (s1 + digitsVal g), 61, 61] with ht2
  have henc2 : encode_word (b64encode [a]) g = some t2 := by
    rw [henc]
    rfl
  -- decode_word t2
  have hmem2 : 61 ∈ t2 := by rw [ht2]; simp
  have hidx2 : t2.indexOf 61 = 2 := by
    rw [ht2, indexOf61_cons h1, indexOf61_cons h2']
    simp [List.indexOf_cons]
  have hfe2 : pyStrIndex t2 61 = some 2 := by
    rw [pyStrIndex, if_pos hmem2, hidx2]
  have hec2 : pyGet t2 (((2 : Nat) : Int) - 1) = some (dChar (s1 + digitsVal g)) := by
    rw [hix1, pyGet_nonneg (by positivity) (by rw [ht2]; simp)]
    rw [ht2]
    simp
  have hdec : b64decode t2 = [a] := by
    rw [ht2, b64decode, filter61_cons_ne h1, filter61_cons_ne h2', filter61_cons_61,
      filter61_cons_61]
    simp only [List.filter_nil, List.map_cons, List.map_nil]
    rw [dChar_indexOf _ (by omega), dChar_indexOf _ (by omega)]
    show [a / 4 * 4 + (s1 + digitsVal g) / 16] = [a]
    have : a / 4 * 4 + (s1 + digitsVal g) / 16 = a := by omega
    rw [this]
  have hbc : pyGet (b64encode (b64decode t2)) (((2 : Nat) : Int) - 1) = some (dChar s1) := by
    rw [hdec]
    exact htm
  have hi1 : pyStrIndex b64dict (dChar (s1 + digitsVal g)) = some (s1 + digitsVal g) :=
    pyStrIndex_dChar (by omega)
  have hi2 : pyStrIndex b64dict (dChar s1) = some s1 := pyStrIndex_dChar (by omega)
  have hdecw := decode_word_eq hfe2 hec2 hbc hi1 hi2
  have hcnt2 : t2.count 61 = 2 := by
    rw [ht2, count61_cons h1, count61_cons h2']
    rfl
  have hzf : zfill (2 * t2.count 61) (intBin (((s1 + digitsVal g : Nat) : Int) -
      ((s1 : Nat) : Int))) = g := by
    rw [hcnt2, int_sub_self_add, intBin_natCast]
    have : (2 * 2 : Nat) = 4 := rfl
    rw [this, zfill_natBin (by simpa using hdg) (by omega)]
    rw [← hgl, padBin_digitsVal hg]
  rw [hzf] at hdecw
  refine ⟨t2, henc2, hdecw, hdec, hcnt2, ?_⟩
  omega

theorem bundle_base2 {a b : Nat} (ha : a < 256) (hb : b < 256) {g : List Nat}
    (hg : isBits g = true) (hgl : g.length = 2) :
    ∃ t2, encode_word (b64encode [a, b]) g = some t2 ∧ decode_word t2 = some g ∧
      b64decode t2 = [a, b] ∧ t2.count 61 = 1 ∧ 1 ≤ t2.indexOf 61 := by
  set s1 := a % 4 * 16 + b / 16 with hs1
  set s2 := b % 16 * 4 with hs2
  have hdg : digitsVal g < 4 := by
    have := digitsVal_lt hg
    rw [hgl] at this
    simpa using this
  have h1 : dChar (a / 4) ≠ 61 := dChar_ne_61 _ (by omega)
  have h2 : dChar s1 ≠ 61 := dChar_ne_61 _ (by omega)
  have h3 : dChar s2 ≠ 61 := dChar_ne_61 _ (by omega)
  have h3' : dChar (s2 + digitsVal g) ≠ 61 := dChar_ne_61 _ (by omega)
  have hgne : g ≠ [] := by
    intro hx
    rw [hx] at hgl
    simp at hgl
  have htok : b64encode [a, b] = [dChar (a / 4), dChar s1, dChar s2, 61] := by rw [b64encode]
  have hmem : 61 ∈ b64encode [a, b] := by rw [htok]; simp
  have hidx : (b64encode [a, b]).indexOf 61 = 3 := by
    rw [htok, indexOf61_cons h1, indexOf61_cons h2, indexOf61_cons h3]
    simp [List.indexOf_cons]
  have hfe : pyStrIndex (b64encode [a, b]) 61 = some 3 := by
    rw [pyStrIndex, if_pos hmem, hidx]
  have hix1 : ((3 : Nat) : Int) - 1 = ((2 : Nat) : Int) := by norm_num
  have htm : pyGet (b64encode [a, b]) (((3 : Nat) : Int) - 1) = some (dChar s2) := by
    rw [hix1, pyGet_nonneg (by positivity) (by rw [htok]; simp)]
    rw [htok]
    simp
  have hparse : parseBin g = some ((digitsVal g : Nat) : Int) := parseBin_digits hg hgne
  have hdi : pyStrIndex b64dict (dChar s2) = some s2 := pyStrIndex_dChar (by omega)
  have hcast : ((s2 : Nat) : Int) + ((digitsVal g : Nat) : Int) =
      (((s2 + digitsVal g : Nat)) : Int) := by push_cast; ring
  have hec : pyGet b64dict (((s2 : Nat) : Int) + ((digitsVal g : Nat) : Int)) =
      some (dChar (s2 + digitsVal g)) := by
    rw [hcast]
    exact pyGet_b64dict (by omega)
  have henc := encode_word_eq hfe htm hparse hdi hec
  have htake : pyTake (((3 : Nat) : Int) - 1) (b64encode [a, b]) =
      [dChar (a / 4), dChar s1] := by
    rw [hix1, pyTake_nonneg (by positivity), htok]
    simp [List.take]
  have hlen : (b64encode [a, b]).length = 4 := by rw [htok]; rfl
  rw [htake, hlen] at henc
  set t2 := [dChar (a / 4), dChar s1, dChar (s2 + digitsVal g), 61] with ht2
  have henc2 : encode_word (b64encode [a, b]) g = some t2 := by
    rw [henc]
    rfl
  have hmem2 : 61 ∈ t2 := by rw [ht2]; simp
  have hidx2 : t2.indexOf 61 = 3 := by
    rw [ht2, indexOf61_cons h1, indexOf61_cons h2, indexOf61_cons h3']
    simp [List.indexOf_cons]
  have hfe2 : pyStrIndex t2 61 = some 3 := by
    rw [pyStrIndex, if_pos hmem2, hidx2]
  have hec2 : pyGet t2 (((3 : Nat) : Int) - 1) = some (dChar (s2 + digitsVal g)) := by
    rw [hix1, pyGet_nonneg (by positivity) (by rw [ht2]; simp)]
    rw [ht2]
    simp
  have hdec : b64decode t2 = [a, b] := by
    rw [ht2, b64decode, filter61_cons_ne h1, filter61_cons_ne h2, filter61_cons_ne h3',
      filter61_cons_61]
    simp only [List.filter_nil, List.map_cons, List.map_nil]
    rw [dChar_indexOf _ (by omega), dChar_indexOf _ (by omega), dChar_indexOf _ (by omega)]
    show [a / 4 * 4 + s1 / 16, s1 % 16 * 16 + (s2 + digitsVal g) / 4] = [a, b]
    have e1 : a / 4 * 4 + s1 / 16 = a := by omega
    have e2 : s1 % 16 * 16 + (s2 + digitsVal g) / 4 = b := by omega
    rw [e1, e2]
  have hbc : pyGet (b64encode (b64decode t2)) (((3 : Nat) : Int) - 1) = some (dChar s2) := by
    rw [hdec]
    exact htm
  have hi1 : pyStrIndex b64dict (dChar (s2 + digitsVal g)) = some (s2 + digitsVal g) :=
    pyStrIndex_dChar (by omega)
  have hi2 : pyStrIndex b64dict (dChar s2) = some s2 := pyStrIndex_dChar (by omega)
  have hdecw := decode_word_eq hfe2 hec2 hbc hi1 hi2
  have hcnt2 : t2.count 61 = 1 := by
    rw [ht2, count61_cons h1, count61_cons h2, count61_cons h3']
    rfl
  have hzf : zfill (2 * t2.count 61) (intBin (((s2 + digitsVal g : Nat) : Int) -
      ((s2 : Nat) : Int))) = g := by
    rw [hcnt2, int_sub_self_add, intBin_natCast]
    have : (2 * 1 : Nat) = 2 := rfl
    rw [this, zfill_natBin (by simpa using hdg) (by omega)]
    rw [← hgl, padBin_digitsVal hg]
  rw [hzf] at hdecw
  refine ⟨t2, henc2, hdecw, hdec, hcnt2, ?_⟩
  omega

theorem pyStrIndex_inv {l : List Nat} {c : Nat} {j : Nat} (h : pyStrIndex l c = some j) :
    c ∈ l ∧ l.indexOf c = j := by
  rw [pyStrIndex] at h
  by_cases hm : c ∈ l
  · rw [if_pos hm] at h
    exact ⟨hm, by simpa using h⟩
  · rw [if_neg hm] at h
    simp at h

theorem encode_word_inv {word g t2 : List Nat} (h : encode_word word g = some t2) :
    ∃ fe tm di ec delta,
      pyStrIndex word 61 = some fe ∧ pyGet word ((fe : Int) - 1) = some tm ∧
      parseBin g = some delta ∧ pyStrIndex b64dict tm = some di ∧
      pyGet b64dict ((di : Int) + delta) = some ec ∧
      t2 = pyTake ((fe : Int) - 1) word ++ ec :: List.replicate (word.length - fe) 61 := by
  simp only [encode_word, Option.bind_eq_some, Option.some.injEq] at h
  obtain ⟨fe, h1, tm, h2, delta, h3, di, h4, ec, h5, h6⟩ := h
  exact ⟨fe, tm, di, ec, delta, h1, h2, h3, h4, h5, h6.symm⟩

theorem decode_word_inv {word r : List Nat} (h : decode_word word = some r) :
    ∃ fe ec bc i1 i2,
      pyStrIndex word 61 = some fe ∧ pyGet word ((fe : Int) - 1) = some ec ∧
      pyGet (b64encode (b64decode word)) ((fe : Int) - 1) = some bc ∧
      pyStrIndex b64dict ec = some i1 ∧ pyStrIndex b64dict bc = some i2 ∧
      r = zfill (2 * word.count 61) (intBin ((i1 : Int) - (i2 : Int))) := by
  simp only [decode_word, Option.bind_eq_some, Option.some.injEq] at h
  obtain ⟨fe, h1, ec, h2, bc, h3, i1, h4, i2, h5, h6⟩ := h
  exact ⟨fe, ec, bc, i1, i2, h1, h2, h3, h4, h5, h6.symm⟩

theorem pyGet_append_right {S T : List Nat} {j : Nat} (h : S.length ≤ j) :
    pyGet (S ++ T) ((j : Nat) : Int) = pyGet T (((j - S.length : Nat)) : Int) := by
  by_cases hj : j - S.length < T.length
  · have hj1 : ((j : Nat) : Int) < (((S ++ T).length : Nat) : Int) := by
      rw [List.length_append]
      exact_mod_cast (by omega : j < S.length + T.length)
    have hj2 : (((j - S.length : Nat)) : Int) < ((T.length : Nat) : Int) := by
      exact_mod_cast hj
    rw [pyGet, if_pos (Int.natCast_nonneg _), if_pos hj1,
      pyGet, if_pos (Int.natCast_nonneg _), if_pos hj2]
    congr 1
    rw [Int.toNat_natCast, Int.toNat_natCast]
    exact List.getD_append_right S T 0 j h
  · have hj1 : ¬ (((j : Nat) : Int) < (((S ++ T).length : Nat) : Int)) := by
      rw [List.length_append]
      intro hx
      have : j < S.length + T.length := by exact_mod_cast hx
      omega
    have hj2 : ¬ ((((j - S.length : Nat)) : Int) < ((T.length : Nat) : Int)) := by
      intro hx
      have : j - S.length < T.length := by exact_mod_cast hx
      omega
    rw [pyGet, if_pos (Int.natCast_nonneg _), if_neg hj1,
      pyGet, if_pos (Int.natCast_nonneg _), if_neg hj2]

theorem natCast_succ_sub_one (n : Nat) : ((n + 1 : Nat) : Int) - 1 = ((n : Nat) : Int) := by
  push_cast
  ring

theorem bundle {bs : List Nat} (h : bs.all (fun c => c < 256) = true)
    (h3 : bs.length % 3 ≠ 0) {g : List Nat} (hg : isBits g = true)
    (hgl : g.length = 2 * (b64encode bs).count 61) :
    ∃ t2, encode_word (b64encode bs) g = some t2 ∧ decode_word t2 = some g ∧
      b64decode t2 = bs ∧ t2.count 61 = (b64encode bs).count 61 ∧ 1 ≤ t2.indexOf 61 := by
  induction bs using b64encode.induct generalizing g with
  | case1 => simp at h3
  | case2 a =>
    have ha : a < 256 := by simpa using h
    have hc : (b64encode [a]).count 61 = 2 := by
      rw [count61_b64encode h]
      simp
    rw [hc] at hgl
    obtain ⟨t2, he, hd, hb, hcnt, hidx⟩ := bundle_base1 ha hg hgl
    rw [hc]
    exact ⟨t2, he, hd, hb, hcnt, hidx⟩
  | case3 a b =>
    have hab : a < 256 ∧ b < 256 := by simpa using h
    have hc : (b64encode [a, b]).count 61 = 1 := by
      rw [count61_b64encode h]
      simp
    rw [hc] at hgl
    have hgl2 : g.length = 2 := by omega
    obtain ⟨t2, he, hd, hb, hcnt, hidx⟩ := bundle_base2 hab.1 hab.2 hg hgl2
    rw [hc]
    exact ⟨t2, he, hd, hb, hcnt, hidx⟩
  | case4 a b c rest ih =>
    have habc : a < 256 ∧ b < 256 ∧ c < 256 ∧ rest.all (fun x => x < 256) = true := by
      simpa using h
    obtain ⟨ha, hb, hc, hrest⟩ := habc
    have hr3 : rest.length % 3 ≠ 0 := by
      intro hx
      apply h3
      simp only [List.length_cons]
      omega
    have hrne : rest ≠ [] := by
      intro hx
      rw [hx] at hr3
      simp at hr3
    set x0 := dChar (a / 4) with hx0def
    set x1 := dChar (a % 4 * 16 + b / 16) with hx1def
    set x2 := dChar (b % 16 * 4 + c / 64) with hx2def
    set x3 := dChar (c % 64) with hx3def
    have hx0 : x0 ≠ 61 := dChar_ne_61 _ (by omega)
    have hx1 : x1 ≠ 61 := dChar_ne_61 _ (by omega)
    have hx2 : x2 ≠ 61 := dChar_ne_61 _ (by omega)
    have hx3 : x3 ≠ 61 := dChar_ne_61 _ (by omega)
    set T := b64encode rest with hTdef
    have hword : b64encode (a :: b :: c :: rest) = x0 :: x1 :: x2 :: x3 :: T := by
      rw [b64encode]
    have hccons : (b64encode (a :: b :: c :: rest)).count 61 = T.count 61 := by
      rw [hword, count61_cons hx0, count61_cons hx1, count61_cons hx2, count61_cons hx3]
    have hgl2 : g.length = 2 * T.count 61 := by rw [hgl, hccons]
    obtain ⟨t2, henc, hdec, hb64, hcnt, hidx1⟩ := ih hrest hr3 hg hgl2
    -- invert the inner encode_word
    obtain ⟨fe, tm, di, ec, delta, e1, e2, e3, e4, e5, e6⟩ := encode_word_inv henc
    obtain ⟨hmemT, hfeT⟩ := pyStrIndex_inv e1
    have hfe1 : 1 ≤ fe := by
      have := indexOf61_b64encode_pos hrne hrest
      rw [← hTdef] at this
      omega
    obtain ⟨k, rfl⟩ : ∃ k, fe = k + 1 := ⟨fe - 1, by omega⟩
    have e2' : pyGet T ((k : Nat) : Int) = some tm := by
      rw [← natCast_succ_sub_one k]
      exact e2
    -- outer encode_word
    have hmemw : 61 ∈ x0 :: x1 :: x2 :: x3 :: T := by simp [hmemT]
    have hidxw : (x0 :: x1 :: x2 :: x3 :: T).indexOf 61 = k + 5 := by
      rw [indexOf61_cons hx0, indexOf61_cons hx1, indexOf61_cons hx2, indexOf61_cons hx3, hfeT]
    have E1 : pyStrIndex (x0 :: x1 :: x2 :: x3 :: T) 61 = some (k + 5) := by
      rw [pyStrIndex, if_pos hmemw, hidxw]
    have happ : x0 :: x1 :: x2 :: x3 :: T = [x0, x1, x2, x3] ++ T := rfl
    have E2 : pyGet (x0 :: x1 :: x2 :: x3 :: T) (((k + 5 : Nat) : Int) - 1) = some tm := by
      rw [natCast_succ_sub_one (k + 4), happ]
      rw [pyGet_append_right (by simp)]
      have : k + 4 - ([x0, x1, x2, x3] : List Nat).length = k := by simp
      rw [this, e2']
    have E5 := e5
    have henc_out := encode_word_eq E1 E2 e3 e4 E5
    have htake_out : pyTake (((k + 5 : Nat) : Int) - 1) (x0 :: x1 :: x2 :: x3 :: T) =
        x0 :: x1 :: x2 :: x3 :: T.take k := by
      rw [natCast_succ_sub_one (k + 4), pyTake_nonneg (Int.natCast_nonneg _), Int.toNat_natCast]
      rw [happ, List.take_append_eq_append_take]
      have h4 : ([x0, x1, x2, x3] : List Nat).length = 4 := rfl
      rw [List.take_of_length_le (by rw [h4]; omega), h4]
      have : k + 4 - 4 = k := by omega
      rw [this]
      rfl
    have hlen_out : (x0 :: x1 :: x2 :: x3 :: T).length - (k + 5) = T.length - (k + 1) := by
      simp only [List.length_cons]
      omega
    have ht2take : pyTake (((k + 1 : Nat) : Int) - 1) T = T.take k := by
      rw [natCast_succ_sub_one k, pyTake_nonneg (Int.natCast_nonneg _), Int.toNat_natCast]
    have henc_shape : encode_word (x0 :: x1 :: x2 :: x3 :: T) g = some (x0 :: x1 :: x2 :: x3 :: t2) := by
      rw [henc_out, htake_out, hlen_out]
      rw [e6, ht2take]
      rfl
    -- invert the inner decode_word
    obtain ⟨fe2, ec2, bc2, i1, i2, d1, d2, d3, d4, d5, d6⟩ := decode_word_inv hdec
    obtain ⟨hmem2, hfe2T⟩ := pyStrIndex_inv d1
    have hfe21 : 1 ≤ fe2 := by omega
    obtain ⟨m, rfl⟩ : ∃ m, fe2 = m + 1 := ⟨fe2 - 1, by omega⟩
    have d2' : pyGet t2 ((m : Nat) : Int) = some ec2 := by
      rw [← natCast_succ_sub_one m]
      exact d2
    have d3' : pyGet T ((m : Nat) : Int) = some bc2 := by
      rw [← natCast_succ_sub_one m]
      rw [hb64] at d3
      exact d3
    set w2 := x0 :: x1 :: x2 :: x3 :: t2 with hw2def
    have happ2 : w2 = [x0, x1, x2, x3] ++ t2 := rfl
    have hmemw2 : 61 ∈ w2 := by
      rw [hw2def]
      simp [hmem2]
    have hidxw2 : w2.indexOf 61 = m + 5 := by
      rw [hw2def, indexOf61_cons hx0, indexOf61_cons hx1, indexOf61_cons hx2,
        indexOf61_cons hx3, hfe2T]
    have D1 : pyStrIndex w2 61 = some (m + 5) := by
      rw [pyStrIndex, if_pos hmemw2, hidxw2]
    have D2 : pyGet w2 (((m + 5 : Nat) : Int) - 1) = some ec2 := by
      rw [natCast_succ_sub_one (m + 4), happ2]
      rw [pyGet_append_right (by simp)]
      have : m + 4 - ([x0, x1, x2, x3] : List Nat).length = m := by simp
      rw [this, d2']
    have hdec64 : b64decode w2 = a :: b :: c :: rest := by
      rw [hw2def, b64decode, filter61_cons_ne hx0, filter61_cons_ne hx1, filter61_cons_ne hx2,
        filter61_cons_ne hx3]
      simp only [List.map_cons]
      rw [hx0def, hx1def, hx2def, hx3def]
      rw [dChar_indexOf _ (by omega), dChar_indexOf _ (by omega), dChar_indexOf _ (by omega),
        dChar_indexOf _ (by omega)]
      rw [symsToBytes]
      have e1' : a / 4 * 4 + (a % 4 * 16 + b / 16) / 16 = a := by omega
      have e2'' : (a % 4 * 16 + b / 16) % 16 * 16 + (b % 16 * 4 + c / 64) / 4 = b := by omega
      have e3' : (b % 16 * 4 + c / 64) % 4 * 64 + c % 64 = c := by omega
      rw [e1', e2'', e3', ← b64decode, hb64]
    have hbase : b64encode (b64decode w2) = [x0, x1, x2, x3] ++ T := by
      rw [hdec64, hword]
      rfl
    have D3 : pyGet (b64encode (b64decode w2)) (((m + 5 : Nat) : Int) - 1) = some bc2 := by
      rw [natCast_succ_sub_one (m + 4), hbase]
      rw [pyGet_append_right (by simp)]
      have : m + 4 - ([x0, x1, x2, x3] : List Nat).length = m := by simp
      rw [this, d3']
    have hdecw := decode_word_eq D1 D2 D3 d4 d5
    have hcntw2 : w2.count 61 = t2.count 61 := by
      rw [hw2def, count61_cons hx0, count61_cons hx1, count61_cons hx2, count61_cons hx3]
    have hdec_shape : decode_word w2 = some g := by
      rw [hdecw, hcntw2, ← d6]
    refine ⟨w2, ?_, hdec_shape, hdec64, ?_, ?_⟩
    · rw [hword]
      exact henc_shape
    · rw [hcntw2, hccons, hcnt]
    · rw [hidxw2]
      omega

/-! ## The encode/decode pipeline -/

theorem foldl_count_init (ws : List (List Nat)) (i : Nat) :
    ws.foldl (fun a w => a + w.count 61) i = i + ws.foldl (fun a w => a + w.count 61) 0 := by
  induction ws generalizing i with
  | nil => simp
  | cons w ws ih =>
    simp only [List.foldl_cons]
    rw [ih (i + w.count 61), ih (0 + w.count 61)]
    omega

theorem count_equals_cons (w : List Nat) (ws : List (List Nat)) :
    count_equals (w :: ws) = 2 * w.count 61 + count_equals ws := by
  rw [count_equals, count_equals, List.foldl_cons, foldl_count_init]
  omega

theorem all128_to_256 {bs : List Nat} (h : bs.all (fun c => c < 128) = true) :
    bs.all (fun c => c < 256) = true := by
  rw [List.all_eq_true] at *
  intro x hx
  have := h x hx
  simp only [decide_eq_true_eq] at *
  omega

theorem loop {ws : List (List Nat)} {bits : List Nat}
    (hcanon : ∀ w ∈ ws, ∃ bs, bs.all (fun c => c < 128) = true ∧ w = b64encode bs)
    (hbits : isBits bits = true) (hlen : count_equals ws ≤ bits.length) :
    ∃ out, encodeLoop ws bits = some out ∧
      decodeLoop out = some (bits.take (count_equals ws), (ws.map b64decode).flatten) := by
  induction ws generalizing bits with
  | nil =>
    refine ⟨[], rfl, ?_⟩
    have : count_equals [] = 0 := rfl
    rw [this]
    simp [decodeLoop]
  | cons w ws ih =>
    obtain ⟨bs, hbs128, rfl⟩ := hcanon w (by simp)
    have hbs256 : bs.all (fun c => c < 256) = true := all128_to_256 hbs128
    have hcanon' : ∀ w ∈ ws, ∃ bs, bs.all (fun c => c < 128) = true ∧ w = b64encode bs :=
      fun w hw => hcanon w (by simp [hw])
    have hce : count_equals (b64encode bs :: ws) =
        2 * (b64encode bs).count 61 + count_equals ws := count_equals_cons _ _
    by_cases he : 0 < (b64encode bs).count 61
    · have h3 : bs.length % 3 ≠ 0 := by
        intro hx
        rw [count61_b64encode hbs256, if_pos hx] at he
        omega
      have h2e : 2 * (b64encode bs).count 61 ≤ bits.length := by omega
      have hg : isBits (bits.take (2 * (b64encode bs).count 61)) = true := isBits_take hbits _
      have hglen : (bits.take (2 * (b64encode bs).count 61)).length =
          2 * (b64encode bs).count 61 := by
        rw [List.length_take]
        omega
      obtain ⟨t2, henc, hdec, hb64, hcnt, _⟩ := bundle hbs256 h3 hg hglen
      have hlend : count_equals ws ≤ (bits.drop (2 * (b64encode bs).count 61)).length := by
        rw [List.length_drop]
        omega
      obtain ⟨out, hloop, hdecloop⟩ := ih hcanon' (isBits_drop hbits _) hlend
      refine ⟨t2 :: out, ?_, ?_⟩
      · rw [encodeLoop, if_pos he]
        simp only [henc, hloop]
      · have hcnt2 : 0 < t2.count 61 := by omega
        rw [decodeLoop, if_pos hcnt2]
        simp only [hdec, hb64, hbs128, if_pos, hdecloop]
        rw [hce, List.take_add]
        have : b64decode (b64encode bs) = bs := b64decode_b64encode hbs256
        simp [this]
    · have he0 : (b64encode bs).count 61 = 0 := by omega
      have hlen' : count_equals ws ≤ bits.length := by omega
      obtain ⟨out, hloop, hdecloop⟩ := ih hcanon' hbits hlen'
      refine ⟨b64encode bs :: out, ?_, ?_⟩
      · rw [encodeLoop, if_neg he]
        simp only [hloop]
      · rw [decodeLoop, if_neg he]
        have hdecb : b64decode (b64encode bs) = bs := b64decode_b64encode hbs256
        simp only [hdecb, hbs128, if_pos, hdecloop]
        rw [hce, he0]
        simp [hdecb]

theorem splitSpace_cons_eq (c : Nat) {rest : List Nat} {w : List Nat} {ws : List (List Nat)}
    (hsp : splitSpace rest = w :: ws) :
    splitSpace (c :: rest) = if c = 32 then [] :: w :: ws else (c :: w) :: ws := by
  rw [splitSpace, hsp]

theorem splitSpace_ne_nil (s : List Nat) : splitSpace s ≠ [] := by
  induction s with
  | nil => simp [splitSpace]
  | cons c rest ih =>
    cases hsp : splitSpace rest with
    | nil => exact absurd hsp ih
    | cons w ws =>
      rw [splitSpace_cons_eq c hsp]
      by_cases hc : c = 32
      · rw [if_pos hc]
        simp
      · rw [if_neg hc]
        simp

theorem splitSpace_join (s : List Nat) :
    ((splitSpace s).map (fun w => w ++ [32])).flatten = s ++ [32] := by
  induction s with
  | nil => rfl
  | cons c rest ih =>
    cases hsp : splitSpace rest with
    | nil => exact absurd hsp (splitSpace_ne_nil rest)
    | cons w ws =>
      rw [hsp] at ih
      rw [splitSpace_cons_eq c hsp]
      by_cases hc : c = 32
      · subst hc
        rw [if_pos rfl]
        simp only [List.map_cons, List.flatten_cons] at *
        simp [ih]
      · rw [if_neg hc]
        simp only [List.map_cons, List.flatten_cons] at *
        simpa using congrArg (List.cons c) ih

theorem splitSpace_chars {s w : List Nat} (hw : w ∈ splitSpace s) {c : Nat} (hc : c ∈ w) :
    c ∈ s := by
  induction s generalizing w with
  | nil =>
    simp [splitSpace] at hw
    subst hw
    simp at hc
  | cons c2 rest ih =>
    cases hsp : splitSpace rest with
    | nil => exact absurd hsp (splitSpace_ne_nil rest)
    | cons w2 ws =>
      rw [splitSpace_cons_eq c2 hsp] at hw
      by_cases h32 : c2 = 32
      · rw [if_pos h32] at hw
        rcases List.mem_cons.mp hw with rfl | hw2
        · simp at hc
        · have : w ∈ splitSpace rest := by rw [hsp]; exact hw2
          exact List.mem_cons_of_mem _ (ih this hc)
      · rw [if_neg h32] at hw
        rcases List.mem_cons.mp hw with rfl | hw2
        · rcases List.mem_cons.mp hc with rfl | hc2
          · simp
          · have : w2 ∈ splitSpace rest := by rw [hsp]; simp
            exact List.mem_cons_of_mem _ (ih this hc2)
        · have : w ∈ splitSpace rest := by rw [hsp]; simp [hw2]
          exact List.mem_cons_of_mem _ (ih this hc)

theorem exists_seven {x : List Nat} (hx : x.length = 7) :
    ∃ a b c d e f g, x = [a, b, c, d, e, f, g] := by
  rcases x with _ | ⟨a, _ | ⟨b, _ | ⟨c, _ | ⟨d, _ | ⟨e, _ | ⟨f, _ | ⟨g, rest⟩⟩⟩⟩⟩⟩⟩ <;>
    simp only [List.length_cons, List.length_nil] at hx
  · omega
  · omega
  · omega
  · omega
  · omega
  · omega
  · omega
  · have : rest = [] := List.length_eq_zero.mp (by omega)
    subst this
    exact ⟨a, b, c, d, e, f, g, rfl⟩

theorem chunks7_len_append {x : List Nat} (hx : x.length = 7) (y : List Nat) :
    chunks7 (x ++ y) = x :: chunks7 y := by
  obtain ⟨a, b, c, d, e, f, g, rfl⟩ := exists_seven hx
  rfl

theorem chunks7_flatten {blocks : List (List Nat)} (hb : ∀ x ∈ blocks, x.length = 7)
    (tail : List Nat) : chunks7 (blocks.flatten ++ tail) = blocks ++ chunks7 tail := by
  induction blocks with
  | nil => simp
  | cons x bl ih =>
    rw [List.flatten_cons, List.append_assoc, chunks7_len_append (hb x (by simp))]
    rw [ih (fun y hy => hb y (by simp [hy]))]
    rfl

theorem chunks7_mem {l x : List Nat} (hx : x ∈ chunks7 l) :
    x.length = 7 ∧ ∀ c ∈ x, c ∈ l := by
  induction l using chunks7.induct with
  | case1 a b c d e f g rest ih =>
    rw [chunks7] at hx
    rcases List.mem_cons.mp hx with rfl | hx2
    · refine ⟨rfl, ?_⟩
      intro y hy
      simp at hy
      rcases hy with rfl | rfl | rfl | rfl | rfl | rfl | rfl <;> simp
    · obtain ⟨hlen, hmem⟩ := ih hx2
      refine ⟨hlen, fun y hy => ?_⟩
      have := hmem y hy
      simp [this]
  | case2 l hshape =>
    rw [chunks7] at hx
    · simp at hx
    · exact hshape

theorem readChars_cons_eq {ch : List Nat} (rest : List (List Nat)) {v : Int}
    (hp : parseBin ch = some v) :
    readChars (ch :: rest) =
      if v < 0 then Except.error Err.valueError
      else
        match readChars rest with
        | Except.ok l => Except.ok (v.toNat :: l)
        | Except.error e => Except.error e := by
  rw [readChars, hp]

theorem readChars_ok {L : List (List Nat)} (h : ∀ ch ∈ L, ch ≠ [] ∧ isBits ch = true) :
    readChars L = Except.ok (L.map (fun ch => digitsVal ch)) := by
  induction L with
  | nil => rfl
  | cons ch L ih =>
    obtain ⟨hne, hbits⟩ := h ch (by simp)
    rw [readChars_cons_eq L (parseBin_digits hbits hne)]
    rw [if_neg (not_lt.mpr (Int.natCast_nonneg _))]
    rw [ih (fun y hy => h y (by simp [hy]))]
    simp

theorem isBits_zfill_natBin (k v : Nat) : isBits (zfill k (natBin v)) = true := by
  rw [zfill_digits (natBin_isBits v) (natBin_ne_nil v)]
  exact isBits_append (isBits_replicate _) (natBin_isBits v)

theorem isBits_flatten {L : List (List Nat)} (h : ∀ x ∈ L, isBits x = true) :
    isBits L.flatten = true := by
  rw [isBits, List.all_flatten]
  rw [List.all_eq_true]
  exact h

theorem isBits_frameBits (secret : List Nat) : isBits (frameBits secret) = true := by
  apply isBits_append (isBits_zfill_natBin _ _)
  apply isBits_flatten
  intro x hx
  simp only [List.mem_map] at hx
  obtain ⟨c, _, rfl⟩ := hx
  exact isBits_zfill_natBin _ _

theorem frameBits_eq_pad {secret : List Nat} (hn : secret.length ≤ 65535)
    (hc : secret.all (fun c => c < 128) = true) :
    frameBits secret = padBin 16 secret.length ++ (secret.map (fun c => padBin 7 c)).flatten := by
  have h16 : (2 : Nat) ^ 16 = 65536 := by norm_num
  have h7 : (2 : Nat) ^ 7 = 128 := by norm_num
  rw [frameBits, zfill_natBin (by omega) (by omega)]
  congr 1
  congr 1
  apply List.map_congr_left
  intro c hcm
  have hlt : c < 128 := by
    have := List.all_eq_true.mp hc c hcm
    simpa using this
  exact zfill_natBin (by omega) (by omega)

theorem frameBits_length {secret : List Nat} (hn : secret.length ≤ 65535)
    (hc : secret.all (fun c => c < 128) = true) :
    (frameBits secret).length = 16 + 7 * secret.length := by
  rw [frameBits_eq_pad hn hc]
  rw [List.length_append, padBin_length, List.length_flatten, List.map_map]
  have hmap : secret.map (List.length ∘ fun c => padBin 7 c) = secret.map (fun _ => 7) := by
    apply List.map_congr_left
    intro c _
    simp [padBin_length]
  rw [hmap]
  have : (secret.map fun _ => (7 : Nat)) = List.replicate secret.length 7 := List.map_const' _ _
  rw [this, List.sum_replicate]
  simp
  ring

theorem frameBits_length_ge (secret : List Nat) : 16 ≤ (frameBits secret).length := by
  rw [frameBits, List.length_append]
  rw [zfill_length_of_digits (natBin_isBits _) (natBin_ne_nil _)]
  omega

theorem pyTake_subset {α : Type} {i : Int} {l : List α} {x : α} (hx : x ∈ pyTake i l) :
    x ∈ l := by
  rw [pyTake] at hx
  split at hx
  · exact List.mem_of_mem_take hx
  · exact List.mem_of_mem_take hx

theorem decode_eq_of {tokens : List (List Nat)} {bits carrier : List Nat}
    (h : decodeLoop tokens = some (bits, carrier)) :
    decode tokens =
      match parseBin (bits.take 16) with
      | none => Except.error Err.valueError
      | some len =>
        match readChars (pyTake len (chunks7 (bits.drop 16))) with
        | Except.ok s => Except.ok (s, carrier)
        | Except.error e => Except.error e := by
  rw [decode, h]

theorem decode_eq_of1 {tokens : List (List Nat)} {bits carrier : List Nat} {len : Int}
    (h : decodeLoop tokens = some (bits, carrier))
    (hp : parseBin (bits.take 16) = some len) :
    decode tokens =
      match readChars (pyTake len (chunks7 (bits.drop 16))) with
      | Except.ok s => Except.ok (s, carrier)
      | Except.error e => Except.error e := by
  rw [decode_eq_of h, hp]

theorem decode_eq_of2 {tokens : List (List Nat)} {bits carrier : List Nat} {len : Int}
    {s : List Nat} (h : decodeLoop tokens = some (bits, carrier))
    (hp : parseBin (bits.take 16) = some len)
    (hr : readChars (pyTake len (chunks7 (bits.drop 16))) = Except.ok s) :
    decode tokens = Except.ok (s, carrier) := by
  rw [decode_eq_of1 h hp, hr]

theorem master {text secret : List Nat} (htext : text.all (fun c => c < 128) = true)
    (hcap : 16 + 7 * secret.length ≤ total_capacity text) :
    ∃ out s, encode text secret = Except.ok out ∧
      decode out = Except.ok (s, text ++ [32]) ∧
      (secret.all (fun c => c < 128) = true → secret.length ≤ 65535 → s = secret) := by
  have hwords128 : (splitSpace text).all (fun w => w.all (fun c => c < 128)) = true := by
    rw [List.all_eq_true]
    intro w hw
    rw [List.all_eq_true]
    intro c hc
    exact List.all_eq_true.mp htext c (splitSpace_chars hw hc)
  have hword1 : ∀ w ∈ splitSpace text, (w ++ [32]).all (fun c => c < 128) = true := by
    intro w hw
    rw [List.all_append]
    have h1 := List.all_eq_true.mp hwords128 w hw
    simp only [h1, Bool.true_and]
    simp
  have hcanon : ∀ w2 ∈ (splitSpace text).map (fun w => b64encode (w ++ [32])),
      ∃ bs, bs.all (fun c => c < 128) = true ∧ w2 = b64encode bs := by
    intro w2 hw2
    rw [List.mem_map] at hw2
    obtain ⟨w, hw, rfl⟩ := hw2
    exact ⟨w ++ [32], hword1 w hw, rfl⟩
  have hcapeq : count_equals ((splitSpace text).map (fun w => b64encode (w ++ [32]))) =
      total_capacity text := rfl
  have hbits : isBits (frameBits secret ++
      List.replicate (count_equals ((splitSpace text).map (fun w => b64encode (w ++ [32]))) -
        (frameBits secret).length) 48) = true :=
    isBits_append (isBits_frameBits _) (isBits_replicate _)
  have hbl : count_equals ((splitSpace text).map (fun w => b64encode (w ++ [32]))) ≤
      (frameBits secret ++
        List.replicate (count_equals ((splitSpace text).map (fun w => b64encode (w ++ [32]))) -
          (frameBits secret).length) 48).length := by
    rw [List.length_append, List.length_replicate]
    omega
  obtain ⟨out, hloop, hdecloop⟩ := loop hcanon hbits hbl
  have hnotlt : ¬ (count_equals ((splitSpace text).map (fun w => b64encode (w ++ [32]))) <
      7 * secret.length + 16) := by
    rw [hcapeq]
    omega
  have henc : encode text secret = Except.ok out := by
    simp only [encode]
    rw [if_pos hwords128, if_neg hnotlt, hloop]
  have hflat : (((splitSpace text).map (fun w => b64encode (w ++ [32]))).map b64decode).flatten =
      text ++ [32] := by
    rw [List.map_map]
    have hmc : (splitSpace text).map (b64decode ∘ fun w => b64encode (w ++ [32])) =
        (splitSpace text).map (fun w => w ++ [32]) := by
      apply List.map_congr_left
      intro w hw
      exact b64decode_b64encode (all128_to_256 (hword1 w hw))
    rw [hmc, splitSpace_join]
  rw [hflat] at hdecloop
  have hfl16 := frameBits_length_ge secret
  have h16ce : 16 ≤ count_equals ((splitSpace text).map (fun w => b64encode (w ++ [32]))) := by
    rw [hcapeq]
    omega
  have htk16 : ((frameBits secret ++
      List.replicate (count_equals ((splitSpace text).map (fun w => b64encode (w ++ [32]))) -
        (frameBits secret).length) 48).take
      (count_equals ((splitSpace text).map (fun w => b64encode (w ++ [32]))))).take 16 =
      (frameBits secret).take 16 := by
    rw [List.take_take]
    have hm : 16 ⊓ count_equals ((splitSpace text).map (fun w => b64encode (w ++ [32]))) = 16 :=
      min_eq_left h16ce
    rw [hm, List.take_append_of_le_length hfl16]
  have hb16 : isBits ((frameBits secret).take 16) = true := isBits_take (isBits_frameBits _) _
  have hb16ne : (frameBits secret).take 16 ≠ [] := by
    intro hx
    have h0 := congrArg List.length hx
    rw [List.length_take, List.length_nil] at h0
    omega
  have hparse : parseBin (((frameBits secret ++
      List.replicate (count_equals ((splitSpace text).map (fun w => b64encode (w ++ [32]))) -
        (frameBits secret).length) 48).take
      (count_equals ((splitSpace text).map (fun w => b64encode (w ++ [32]))))).take 16) =
      some ((digitsVal ((frameBits secret).take 16) : Nat) : Int) := by
    rw [htk16]
    exact parseBin_digits hb16 hb16ne
  have hread : readChars (pyTake ((digitsVal ((frameBits secret).take 16) : Nat) : Int)
      (chunks7 (((frameBits secret ++
        List.replicate (count_equals ((splitSpace text).map (fun w => b64encode (w ++ [32]))) -
          (frameBits secret).length) 48).take
        (count_equals ((splitSpace text).map (fun w => b64encode (w ++ [32]))))).drop 16))) =
      Except.ok ((pyTake ((digitsVal ((frameBits secret).take 16) : Nat) : Int)
        (chunks7 (((frameBits secret ++
          List.replicate (count_equals ((splitSpace text).map (fun w => b64encode (w ++ [32]))) -
            (frameBits secret).length) 48).take
          (count_equals ((splitSpace text).map (fun w => b64encode (w ++ [32]))))).drop 16))).map
        (fun ch => digitsVal ch)) := by
    apply readChars_ok
    intro ch hch
    obtain ⟨hlen7, hmem⟩ := chunks7_mem (pyTake_subset hch)
    constructor
    · intro hx
      rw [hx] at hlen7
      simp at hlen7
    · apply isBits_of_forall
      intro c hc
      exact isBits_mem (isBits_drop (isBits_take hbits _) 16) (hmem c hc)
  have hdecode := decode_eq_of2 hdecloop hparse hread
  refine ⟨out, _, henc, hdecode, ?_⟩
  intro h7 h65
  have hpad := frameBits_eq_pad h65 h7
  have hfl : (frameBits secret).length = 16 + 7 * secret.length := frameBits_length h65 h7
  have hb0le : (frameBits secret).length ≤
      count_equals ((splitSpace text).map (fun w => b64encode (w ++ [32]))) := by
    rw [hcapeq]
    omega
  have h16' : (2 : Nat) ^ 16 = 65536 := by norm_num
  have h7' : (2 : Nat) ^ 7 = 128 := by norm_num
  have hBITSlen : (frameBits secret ++
      List.replicate (count_equals ((splitSpace text).map (fun w => b64encode (w ++ [32]))) -
        (frameBits secret).length) 48).length =
      count_equals ((splitSpace text).map (fun w => b64encode (w ++ [32]))) := by
    rw [List.length_append, List.length_replicate]
    omega
  have htakeCE : (frameBits secret ++
      List.replicate (count_equals ((splitSpace text).map (fun w => b64encode (w ++ [32]))) -
        (frameBits secret).length) 48).take
      (count_equals ((splitSpace text).map (fun w => b64encode (w ++ [32])))) =
      frameBits secret ++
      List.replicate (count_equals ((splitSpace text).map (fun w => b64encode (w ++ [32]))) -
        (frameBits secret).length) 48 := by
    exact List.take_of_length_le (le_of_eq hBITSlen)
  have hpad16len : (padBin 16 secret.length).length = 16 := padBin_length _ _
  have hB0take : (frameBits secret).take 16 = padBin 16 secret.length := by
    rw [hpad, List.take_append_of_le_length (by rw [hpad16len]),
      List.take_of_length_le (by rw [hpad16len])]
  have hL : digitsVal ((frameBits secret).take 16) = secret.length := by
    rw [hB0take]
    exact digitsVal_padBin (by omega)
  have hdrop16 : ((frameBits secret ++
      List.replicate (count_equals ((splitSpace text).map (fun w => b64encode (w ++ [32]))) -
        (frameBits secret).length) 48).take
      (count_equals ((splitSpace text).map (fun w => b64encode (w ++ [32]))))).drop 16 =
      (secret.map (fun c => padBin 7 c)).flatten ++
      List.replicate (count_equals ((splitSpace text).map (fun w => b64encode (w ++ [32]))) -
        (frameBits secret).length) 48 := by
    rw [htakeCE]
    generalize List.replicate (count_equals ((splitSpace text).map
      (fun w => b64encode (w ++ [32]))) - (frameBits secret).length) 48 = R
    rw [hpad, List.append_assoc]
    have hdl := List.drop_left (padBin 16 secret.length)
      ((secret.map (fun c => padBin 7 c)).flatten ++ R)
    rw [hpad16len] at hdl
    exact hdl
  have hblock7 : ∀ x ∈ secret.map (fun c => padBin 7 c), x.length = 7 := by
    intro x hx
    rw [List.mem_map] at hx
    obtain ⟨c, _, rfl⟩ := hx
    exact padBin_length _ _
  have hchunks : chunks7 ((secret.map (fun c => padBin 7 c)).flatten ++
      List.replicate (count_equals ((splitSpace text).map (fun w => b64encode (w ++ [32]))) -
        (frameBits secret).length) 48) =
      secret.map (fun c => padBin 7 c) ++
      chunks7 (List.replicate (count_equals ((splitSpace text).map
        (fun w => b64encode (w ++ [32]))) - (frameBits secret).length) 48) :=
    chunks7_flatten hblock7 _
  have hblocklen : (secret.map (fun c => padBin 7 c)).length = secret.length :=
    List.length_map _ _
  have hselect : pyTake ((secret.length : Nat) : Int)
      (secret.map (fun c => padBin 7 c) ++
        chunks7 (List.replicate (count_equals ((splitSpace text).map
          (fun w => b64encode (w ++ [32]))) - (frameBits secret).length) 48)) =
      secret.map (fun c => padBin 7 c) := by
    rw [pyTake_nonneg (Int.natCast_nonneg _), Int.toNat_natCast, ← hblocklen, List.take_left]
  rw [hL, hdrop16, hchunks, hselect]
  rw [List.map_map]
  have : secret.map ((fun ch => digitsVal ch) ∘ fun c => padBin 7 c) =
      secret.map (fun c => c) := by
    apply List.map_congr_left
    intro c hcm
    have hlt : c < 128 := by
      have := List.all_eq_true.mp h7 c hcm
      simpa using this
    exact digitsVal_padBin (by omega)
  rw [this, List.map_id']

/-! ## Support lemmas for the claims -/

theorem words_all128 {text : List Nat} (htext : text.all (fun c => c < 128) = true) :
    (splitSpace text).all (fun w => w.all (fun c => c < 128)) = true := by
  rw [List.all_eq_true]
  intro w hw
  rw [List.all_eq_true]
  intro c hc
  exact List.all_eq_true.mp htext c (splitSpace_chars hw hc)

theorem encode_err_of_capacity {text secret : List Nat}
    (htext : (splitSpace text).all (fun w => w.all (fun c => c < 128)) = true)
    (hlt : count_equals ((splitSpace text).map (fun w => b64encode (w ++ [32]))) <
      7 * secret.length + 16) :
    encode text secret = Except.error Err.valueError := by
  simp only [encode]
  rw [if_pos htext, if_pos hlt]

theorem lastchar_b64encode {bs : List Nat} (h : bs.all (fun c => c < 256) = true) :
    (bs.length % 3 = 2 → (b64encode bs).count 61 = 1 ∧
      4 ∣ b64dict.indexOf ((b64encode bs).getD ((b64encode bs).indexOf 61 - 1) 0) ∧
      b64dict.indexOf ((b64encode bs).getD ((b64encode bs).indexOf 61 - 1) 0) ≤ 60) ∧
    (bs.length % 3 = 1 → (b64encode bs).count 61 = 2 ∧
      16 ∣ b64dict.indexOf ((b64encode bs).getD ((b64encode bs).indexOf 61 - 1) 0) ∧
      b64dict.indexOf ((b64encode bs).getD ((b64encode bs).indexOf 61 - 1) 0) ≤ 48) := by
  induction bs using b64encode.induct with
  | case1 => simp
  | case2 a =>
    have ha : a < 256 := by simpa using h
    have h1 : dChar (a / 4) ≠ 61 := dChar_ne_61 _ (by omega)
    have h2 : dChar (a % 4 * 16) ≠ 61 := dChar_ne_61 _ (by omega)
    constructor
    · intro hx
      simp at hx
    · intro _
      have hidx : (b64encode [a]).indexOf 61 = 2 := by
        rw [b64encode, indexOf61_cons h1, indexOf61_cons h2]
        simp [List.indexOf_cons]
    
      have hget : (b64encode [a]).getD ((b64encode [a]).indexOf 61 - 1) 0 = dChar (a % 4 * 16) := by
        rw [hidx, b64encode]
        rfl
      have hcnt : (b64encode [a]).count 61 = 2 := by
        rw [b64encode, count61_cons h1, count61_cons h2]
        rfl
      rw [hget, hcnt, dChar_indexOf _ (by omega)]
      refine ⟨rfl, ⟨a % 4, by ring⟩, by omega⟩
  | case3 a b =>
    have hab : a < 256 ∧ b < 256 := by simpa using h
    obtain ⟨ha, hb⟩ := hab
    have h1 : dChar (a / 4) ≠ 61 := dChar_ne_61 _ (by omega)
    have h2 : dChar (a % 4 * 16 + b / 16) ≠ 61 := dChar_ne_61 _ (by omega)
    have h3 : dChar (b % 16 * 4) ≠ 61 := dChar_ne_61 _ (by omega)
    constructor
    · intro _
      have hidx : (b64encode [a, b]).indexOf 61 = 3 := by
        rw [b64encode, indexOf61_cons h1, indexOf61_cons h2, indexOf61_cons h3]
        simp [List.indexOf_cons]
      have hget : (b64encode [a, b]).getD ((b64encode [a, b]).indexOf 61 - 1) 0 =
          dChar (b % 16 * 4) := by
        rw [hidx, b64encode]
        rfl
      have hcnt : (b64encode [a, b]).count 61 = 1 := by
        rw [b64encode, count61_cons h1, count61_cons h2, count61_cons h3]
        rfl
      rw [hget, hcnt, dChar_indexOf _ (by omega)]
      refine ⟨rfl, ⟨b % 16, by ring⟩, by omega⟩
    · intro hx
      simp at hx
  | case4 a b c rest ih =>
    have habc : a < 256 ∧ b < 256 ∧ c < 256 ∧ rest.all (fun x => x < 256) = true := by
      simpa using h
    obtain ⟨ha, hb, hc, hrest⟩ := habc
    have h1 : dChar (a / 4) ≠ 61 := dChar_ne_61 _ (by omega)
    have h2 : dChar (a % 4 * 16 + b / 16) ≠ 61 := dChar_ne_61 _ (by omega)
    have h3 : dChar (b % 16 * 4 + c / 64) ≠ 61 := dChar_ne_61 _ (by omega)
    have h4 : dChar (c % 64) ≠ 61 := dChar_ne_61 _ (by omega)
    have hlen : (a :: b :: c :: rest).length % 3 = rest.length % 3 := by
      simp only [List.length_cons]
      omega
    obtain ⟨ihA, ihB⟩ := ih hrest
    constructor
    all_goals intro hx
    · rw [hlen] at hx
      have hr3 : rest.length % 3 ≠ 0 := by omega
      have hrne : rest ≠ [] := by
        intro hempty
        rw [hempty] at hr3
        simp at hr3
      have hfepos := indexOf61_b64encode_pos hrne hrest
      obtain ⟨k, hk⟩ : ∃ k, (b64encode rest).indexOf 61 = k + 1 :=
        ⟨(b64encode rest).indexOf 61 - 1, by omega⟩
      obtain ⟨c1, c2, c3⟩ := ihA hx
      have hidx : (b64encode (a :: b :: c :: rest)).indexOf 61 = k + 5 := by
        rw [b64encode, indexOf61_cons h1, indexOf61_cons h2, indexOf61_cons h3,
          indexOf61_cons h4, hk]
      have hget : (b64encode (a :: b :: c :: rest)).getD
          ((b64encode (a :: b :: c :: rest)).indexOf 61 - 1) 0 =
          (b64encode rest).getD ((b64encode rest).indexOf 61 - 1) 0 := by
        rw [hidx, b64encode, hk]
        show (b64encode rest).getD k 0 = (b64encode rest).getD (k + 1 - 1) 0
        congr 1
      have hcnt : (b64encode (a :: b :: c :: rest)).count 61 = (b64encode rest).count 61 := by
        rw [b64encode, count61_cons h1, count61_cons h2, count61_cons h3, count61_cons h4]
      exact ⟨by rw [hcnt]; exact c1, by rw [hget]; exact c2, by rw [hget]; exact c3⟩
    · rw [hlen] at hx
      have hr3 : rest.length % 3 ≠ 0 := by omega
      have hrne : rest ≠ [] := by
        intro hempty
        rw [hempty] at hr3
        simp at hr3
      have hfepos := indexOf61_b64encode_pos hrne hrest
      obtain ⟨k, hk⟩ : ∃ k, (b64encode rest).indexOf 61 = k + 1 :=
        ⟨(b64encode rest).indexOf 61 - 1, by omega⟩
      obtain ⟨c1, c2, c3⟩ := ihB hx
      have hidx : (b64encode (a :: b :: c :: rest)).indexOf 61 = k + 5 := by
        rw [b64encode, indexOf61_cons h1, indexOf61_cons h2, indexOf61_cons h3,
          indexOf61_cons h4, hk]
      have hget : (b64encode (a :: b :: c :: rest)).getD
          ((b64encode (a :: b :: c :: rest)).indexOf 61 - 1) 0 =
          (b64encode rest).getD ((b64encode rest).indexOf 61 - 1) 0 := by
        rw [hidx, b64encode, hk]
        show (b64encode rest).getD k 0 = (b64encode rest).getD (k + 1 - 1) 0
        congr 1
      have hcnt : (b64encode (a :: b :: c :: rest)).count 61 = (b64encode rest).count 61 := by
        rw [b64encode, count61_cons h1, count61_cons h2, count61_cons h3, count61_cons h4]
      exact ⟨by rw [hcnt]; exact c1, by rw [hget]; exact c2, by rw [hget]; exact c3⟩

theorem count_equals_replicate (m : Nat) (t : List Nat) :
    count_equals (List.replicate m t) = m * (2 * t.count 61) := by
  induction m with
  | zero => simp [count_equals]
  | succ m ih =>
    rw [List.replicate_succ, count_equals_cons, ih]
    ring

theorem splitSpace_rep3 (n : Nat) :
    splitSpace (rep3 n) = List.replicate (n + 1) [97, 98, 99] := by
  induction n with
  | zero => decide
  | succ n ih =>
    have h1 : splitSpace (32 :: rep3 n) =
        [] :: [97, 98, 99] :: List.replicate n [97, 98, 99] := by
      rw [splitSpace_cons_eq 32 (by rw [ih, List.replicate_succ]), if_pos rfl]
    have h2 : splitSpace (99 :: 32 :: rep3 n) =
        [99] :: [97, 98, 99] :: List.replicate n [97, 98, 99] := by
      rw [splitSpace_cons_eq 99 h1, if_neg (by omega)]
    have h3 : splitSpace (98 :: 99 :: 32 :: rep3 n) =
        [98, 99] :: [97, 98, 99] :: List.replicate n [97, 98, 99] := by
      rw [splitSpace_cons_eq 98 h2, if_neg (by omega)]
    have h4 : splitSpace (97 :: 98 :: 99 :: 32 :: rep3 n) =
        [97, 98, 99] :: [97, 98, 99] :: List.replicate n [97, 98, 99] := by
      rw [splitSpace_cons_eq 97 h3, if_neg (by omega)]
    show splitSpace (97 :: 98 :: 99 :: 32 :: rep3 n) = _
    rw [h4, List.replicate_succ, List.replicate_succ]

theorem rep3_all128 (n : Nat) : (rep3 n).all (fun c => c < 128) = true := by
  induction n with
  | zero => decide
  | succ n ih =>
    show (97 :: 98 :: 99 :: 32 :: rep3 n).all (fun c => c < 128) = true
    simp only [List.all_cons, ih]
    decide

theorem total_capacity_rep3 (n : Nat) : total_capacity (rep3 n) = 4 * (n + 1) := by
  rw [total_capacity, splitSpace_rep3, List.map_replicate, count_equals_replicate]
  have : (b64encode ([97, 98, 99] ++ [32])).count 61 = 2 := by decide
  rw [this]
  ring

theorem pyGet_b64dict_mem {i : Int} (h1 : -64 ≤ i) (h2 : i < 64) :
    ∃ d, pyGet b64dict i = some d ∧ d ∈ b64dict := by
  by_cases h0 : 0 ≤ i
  · have hlt : i.toNat < 64 := by omega
    refine ⟨dChar i.toNat, ?_, dChar_mem _ hlt⟩
    rw [pyGet, if_pos h0, if_pos (by rw [b64dict_length]; exact_mod_cast (by omega : i < 64))]
    rfl
  · have hlt : b64dict.length - (-i).toNat < 64 := by
      rw [b64dict_length]
      omega
    refine ⟨dChar (b64dict.length - (-i).toNat), ?_, dChar_mem _ hlt⟩
    rw [pyGet, if_neg h0, if_pos (by rw [b64dict_length]; exact_mod_cast (by omega : -(64 : Int) ≤ i))]
    rfl

/-! ## The claims -/

deriving instance DecidableEq for Except

/-- C1. Slot Codec involution: for every encoded token (the Base64 encoding
of a byte string, cf. the data model's Encoded Token) with padding count 1
or 2, and every bit-group `g` of width `2 × padding_count`, extracting after
rewriting recovers the group: `decode_word (encode_word token g) = g`. -/
theorem slot_codec_involution {bs g : List Nat} (h256 : bs.all (fun c => c < 256) = true)
    (hpad : (b64encode bs).count 61 = 1 ∨ (b64encode bs).count 61 = 2)
    (hg : isBits g = true) (hgl : g.length = 2 * (b64encode bs).count 61) :
    (encode_word (b64encode bs) g).bind decode_word = some g := by
  have h3 : bs.length % 3 ≠ 0 := by
    intro hx
    rw [count61_b64encode h256, if_pos hx] at hpad
    rcases hpad with hp | hp <;> omega
  obtain ⟨t2, he, hd, _, _, _⟩ := bundle h256 h3 hg hgl
  rw [he]
  simpa using hd

theorem slot_codec_involution_witness :
    (encode_word (b64encode [97, 32]) [49, 48]).bind decode_word = some [49, 48] :=
  slot_codec_involution (by decide) (by decide) (by decide) (by decide)

/-- C2. Secret round-trip: for every ASCII carrier and every secret of
7-bit characters (length at most 65535, per the data model's Secret
invariant) whose framed length `16 + 7·len` fits the capacity, the secret
component of `decode (encode text secret)` is `secret`. -/
theorem secret_round_trip {text secret : List Nat}
    (htext : text.all (fun c => c < 128) = true)
    (h7 : secret.all (fun c => c < 128) = true) (h65 : secret.length ≤ 65535)
    (hcap : 16 + 7 * secret.length ≤ total_capacity text) :
    ∃ out carrier, encode text secret = Except.ok out ∧
      decode out = Except.ok (secret, carrier) := by
  obtain ⟨out, s, he, hd, hs⟩ := master htext hcap
  exact ⟨out, text ++ [32], he, by rw [hd, hs h7 h65]⟩

theorem secret_round_trip_witness :
    ∃ out carrier, encode (rep3 5) [104] = Except.ok out ∧
      decode out = Except.ok ([104], carrier) :=
  secret_round_trip (by decide) (by decide) (by decide) (by decide)

/-- C3. Capacity boundary: for an ASCII carrier, `encode` succeeds iff
`16 + 7·len(secret) ≤ total_capacity text` (so at exact equality it
succeeds), and when the framed length exceeds the capacity it fails with
the capacity `ValueError`, producing no output. -/
theorem capacity_boundary {text secret : List Nat}
    (htext : text.all (fun c => c < 128) = true) :
    ((∃ out, encode text secret = Except.ok out) ↔
      16 + 7 * secret.length ≤ total_capacity text) ∧
    (total_capacity text < 16 + 7 * secret.length →
      encode text secret = Except.error Err.valueError) := by
  have hw := words_all128 htext
  have hcapeq : count_equals ((splitSpace text).map (fun w => b64encode (w ++ [32]))) =
      total_capacity text := rfl
  constructor
  · constructor
    · rintro ⟨out, hout⟩
      by_contra hlt
      rw [encode_err_of_capacity hw (by omega)] at hout
      simp at hout
    · intro hcap
      obtain ⟨out, s, he, _, _⟩ := master htext hcap
      exact ⟨out, he⟩
  · intro hlt
    exact encode_err_of_capacity hw (by omega)

theorem capacity_boundary_witness :
    ((∃ out, encode (rep3 3) ([104] : List Nat) = Except.ok out) ↔
      16 + 7 * ([104] : List Nat).length ≤ total_capacity (rep3 3)) ∧
    (total_capacity (rep3 3) < 16 + 7 * ([104] : List Nat).length →
      encode (rep3 3) ([104] : List Nat) = Except.error Err.valueError) :=
  capacity_boundary (by decide)

/-- C4 counterexample: with the empty secret and the carrier
`"abc abc abc abc"` (capacity exactly 16), the decoded pair is
`("", text ++ " ")`, which differs from the claimed `("", text)`: the
reconstructed carrier carries one extra trailing space. -/
theorem zero_secret_roundtrip_counterexample :
    (encode (rep3 3) []).bind decode = Except.ok (([] : List Nat), rep3 3 ++ [32]) ∧
    rep3 3 ++ [32] ≠ rep3 3 := by
  constructor
  · decide
  · decide

/-- C4 amended: for every ASCII carrier whose capacity is at least the
16 framing bits, `decode (encode text "")` succeeds and returns the empty
secret together with the carrier text plus exactly one extra trailing
space: `("", text ++ " ")`. -/
theorem zero_secret_roundtrip {text : List Nat}
    (htext : text.all (fun c => c < 128) = true)
    (hcap : 16 ≤ total_capacity text) :
    ∃ out, encode text [] = Except.ok out ∧
      decode out = Except.ok (([] : List Nat), text ++ [32]) := by
  obtain ⟨out, s, he, hd, hs⟩ := @master text [] htext (by simpa using hcap)
  refine ⟨out, he, ?_⟩
  rw [hd, hs (by decide) (by decide)]

theorem zero_secret_roundtrip_witness :
    ∃ out, encode (rep3 3) [] = Except.ok out ∧
      decode out = Except.ok (([] : List Nat), rep3 3 ++ [32]) :=
  zero_secret_roundtrip (by decide) (by decide)

/-- C5 counterexample: a secret of 65536 characters (longer than 65535) is
accepted by `encode` — no `SecretTooLong` error exists in the code — as
soon as the carrier (114692 words `"abc"`) provides enough capacity. -/
theorem secret_too_long_counterexample :
    65535 < (List.replicate 65536 97).length ∧
    ∃ out, encode (rep3 114691) (List.replicate 65536 97) = Except.ok out := by
  constructor
  · rw [List.length_replicate]
    omega
  · have hcap : 16 + 7 * (List.replicate 65536 97).length ≤ total_capacity (rep3 114691) := by
      rw [total_capacity_rep3, List.length_replicate]
    obtain ⟨out, s, he, _, _⟩ := master (rep3_all128 _) hcap
    exact ⟨out, he⟩

/-- C5 amended: `encode` performs no secret-length check at all: for every
ASCII carrier and every secret — of any length — it succeeds whenever the
framed length fits the capacity; the only length-related failure is the
capacity `ValueError`. -/
theorem no_secret_length_check {text secret : List Nat}
    (htext : text.all (fun c => c < 128) = true)
    (hcap : 16 + 7 * secret.length ≤ total_capacity text) :
    ∃ out, encode text secret = Except.ok out := by
  obtain ⟨out, s, he, _, _⟩ := master htext hcap
  exact ⟨out, he⟩

theorem no_secret_length_check_witness :
    ∃ out, encode (rep3 5) ([104] : List Nat) = Except.ok out :=
  no_secret_length_check (by decide) (by decide)

/-- C6 counterexample: the frame stores `bin(200)` in 8 bits (not 7 bits of
`200 mod 128 = 72`), and decoding the embedded secret `chr(200)` yields
`chr(100)` (the top 7 of those 8 bits), not `chr(72)` and not `chr(200)`. -/
theorem truncation_counterexample :
    (zfill 7 (natBin 200)).length = 8 ∧
    (encode (rep3 5) [200]).bind decode = Except.ok ([100], rep3 5 ++ [32]) ∧
    (100 : Nat) ≠ 200 % 128 := by
  refine ⟨by decide, by decide, by decide⟩

/-- C6 amended: for a secret character with code `c ∈ [128, 256)`, framing
stores `bin(c)` zero-filled to at least 7 bits — here exactly 8 bits whose
value is `c`, with no `mod 128` truncation — and decoding a one-character
secret with that code yields the character with code `c / 2` (the top 7 of
the 8 stored bits), silently misaligned rather than truncated `mod 128`. -/
theorem truncation_behavior :
    ∀ c : Nat, c < 256 → 128 ≤ c →
      (zfill 7 (natBin c)).length = 8 ∧ digitsVal (zfill 7 (natBin c)) = c ∧
      (encode (rep3 5) [c]).bind decode = Except.ok ([c / 2], rep3 5 ++ [32]) := by
  set_option maxRecDepth 100000 in decide

theorem truncation_behavior_witness :
    (zfill 7 (natBin 200)).length = 8 ∧ digitsVal (zfill 7 (natBin 200)) = 200 ∧
    (encode (rep3 5) [200]).bind decode = Except.ok ([100], rep3 5 ++ [32]) := by
  have h := truncation_behavior 200 (by decide) (by decide)
  simpa using h

/-- C7 counterexample: the token `"YSA="` (encoding `"a "`) rewritten with
the nonzero bit-group `"10"` becomes `"YSC="`, and decoding `"YSC="` yields
the *original* bytes `"a "` — not a different byte sequence: the delta only
touches the padding bits, which decoding discards. -/
theorem perturbed_decode_counterexample :
    encode_word (b64encode [97, 32]) [49, 48] = some [89, 83, 67, 61] ∧
    [89, 83, 67, 61] ≠ b64encode [97, 32] ∧
    b64decode [89, 83, 67, 61] = [97, 32] ∧
    b64decode (b64encode [97, 32]) = [97, 32] := by
  refine ⟨by decide, by decide, by decide, by decide⟩

/-- C7 amended: decoding a rewritten token always yields exactly the
original pre-perturbation bytes, for every bit-group (zero or not), because
the alphabet offset lands entirely in the padding bits that `b64decode`
discards; carrier reconstruction is therefore byte-identical always. -/
theorem perturbed_decode_identity {bs g : List Nat}
    (h256 : bs.all (fun c => c < 256) = true)
    (hpad : 0 < (b64encode bs).count 61)
    (hg : isBits g = true) (hgl : g.length = 2 * (b64encode bs).count 61) :
    ∃ t2, encode_word (b64encode bs) g = some t2 ∧ b64decode t2 = bs := by
  have h3 : bs.length % 3 ≠ 0 := by
    intro hx
    rw [count61_b64encode h256, if_pos hx] at hpad
    omega
  obtain ⟨t2, he, _, hb, _, _⟩ := bundle h256 h3 hg hgl
  exact ⟨t2, he, hb⟩

theorem perturbed_decode_identity_witness :
    ∃ t2, encode_word (b64encode [97, 32]) [49, 48] = some t2 ∧ b64decode t2 = [97, 32] :=
  perturbed_decode_identity (by decide) (by decide) (by decide) (by decide)

/-- C8 counterexample: the alphabet lookup does *not* reduce modulo 64:
for the alphabet character `'/'` (index 63) and offset `k = 1`, the lookup
at index 64 fails out of range (Python `IndexError`) instead of wrapping. -/
theorem alphabet_closure_counterexample :
    (47 : Nat) ∈ b64dict ∧
    pyGet b64dict ((b64dict.indexOf 47 : Nat) + 1 : Int) = none := by
  refine ⟨by decide, by decide⟩

/-- C8 amended: the lookup at an integer index succeeds and yields an
alphabet character exactly on Python's list-index window `-64 ≤ i < 64`
(one negative wrap, no modulo-64 reduction); the rewrite step stays in
range only because its indices never exceed 63 for tokens built by
`encode`. -/
theorem alphabet_lookup_range {i : Int} (h1 : -64 ≤ i) (h2 : i < 64) :
    ∃ d, pyGet b64dict i = some d ∧ d ∈ b64dict :=
  pyGet_b64dict_mem h1 h2

theorem alphabet_lookup_range_witness :
    ∃ d, pyGet b64dict (-1) = some d ∧ d ∈ b64dict :=
  alphabet_lookup_range (by norm_num) (by norm_num)

/-- C9. Implicit: whenever `encode` succeeds on an ASCII carrier with a
7-bit secret, the carrier component of `decode (encode text secret)` is
`text ++ " "` — exactly one extra trailing space, because every word gets a
space appended before Base64 encoding and `decode` concatenates the decoded
tokens without stripping. -/
theorem carrier_trailing_space {text secret : List Nat}
    (htext : text.all (fun c => c < 128) = true)
    (_h7 : secret.all (fun c => c < 128) = true)
    (hok : ∃ out, encode text secret = Except.ok out) :
    ∃ out s, encode text secret = Except.ok out ∧
      decode out = Except.ok (s, text ++ [32]) := by
  have hcap : 16 + 7 * secret.length ≤ total_capacity text := by
    by_contra hlt
    obtain ⟨out, hout⟩ := hok
    have hcapeq : count_equals ((splitSpace text).map (fun w => b64encode (w ++ [32]))) =
        total_capacity text := rfl
    rw [encode_err_of_capacity (words_all128 htext) (by omega)] at hout
    simp at hout
  obtain ⟨out, s, he, hd, _⟩ := master htext hcap
  exact ⟨out, s, he, hd⟩

theorem carrier_trailing_space_witness :
    ∃ out s, encode (rep3 5) [104] = Except.ok out ∧
      decode out = Except.ok (s, rep3 5 ++ [32]) :=
  carrier_trailing_space (by decide) (by decide)
    ⟨[[89, 87, 74, 106, 73, 65, 61, 61], [89, 87, 74, 106, 73, 65, 61, 61],
      [89, 87, 74, 106, 73, 65, 61, 61], [89, 87, 74, 106, 73, 66, 61, 61],
      [89, 87, 74, 106, 73, 78, 61, 61], [89, 87, 74, 106, 73, 65, 61, 61]], by decide⟩

/-- C10. Implicit safety of the encode pipeline: for every token built by
Base64-encoding a word plus trailing space, the alphabet index of the last
body character is a multiple of 4 (and ≤ 60) when the token has one `=`,
and a multiple of 16 (and ≤ 48) when it has two, so `encode_word`'s
unguarded alphabet lookup at index + delta never fails on the bit-groups
`encode` feeds it. -/
theorem encode_pipeline_safety {w : List Nat} (h : w.all (fun c => c < 256) = true) :
    ((b64encode (w ++ [32])).count 61 = 1 →
      4 ∣ b64dict.indexOf
          ((b64encode (w ++ [32])).getD ((b64encode (w ++ [32])).indexOf 61 - 1) 0) ∧
      b64dict.indexOf
          ((b64encode (w ++ [32])).getD ((b64encode (w ++ [32])).indexOf 61 - 1) 0) ≤ 60) ∧
    ((b64encode (w ++ [32])).count 61 = 2 →
      16 ∣ b64dict.indexOf
          ((b64encode (w ++ [32])).getD ((b64encode (w ++ [32])).indexOf 61 - 1) 0) ∧
      b64dict.indexOf
          ((b64encode (w ++ [32])).getD ((b64encode (w ++ [32])).indexOf 61 - 1) 0) ≤ 48) ∧
    (∀ g, isBits g = true → g.length = 2 * (b64encode (w ++ [32])).count 61 →
      0 < (b64encode (w ++ [32])).count 61 →
      (encode_word (b64encode (w ++ [32])) g).isSome = true) := by
  have h32 : (w ++ [32]).all (fun c => c < 256) = true := by
    rw [List.all_append, h]
    decide
  have hcnt := count61_b64encode h32
  obtain ⟨lc2, lc1⟩ := lastchar_b64encode h32
  have hmod : (w ++ [32]).length % 3 < 3 := Nat.mod_lt _ (by omega)
  refine ⟨?_, ?_, ?_⟩
  · intro h1
    apply (lc2 ?_).2
    rw [hcnt] at h1
    by_cases hz : (w ++ [32]).length % 3 = 0
    · rw [if_pos hz] at h1
      omega
    · rw [if_neg hz] at h1
      omega
  · intro h2
    apply (lc1 ?_).2
    rw [hcnt] at h2
    by_cases hz : (w ++ [32]).length % 3 = 0
    · rw [if_pos hz] at h2
      omega
    · rw [if_neg hz] at h2
      omega
  · intro g hg hgl hpos
    have h3 : (w ++ [32]).length % 3 ≠ 0 := by
      intro hx
      rw [hcnt, if_pos hx] at hpos
      omega
    obtain ⟨t2, he, _, _, _, _⟩ := bundle h32 h3 hg hgl
    rw [he]
    rfl

theorem encode_pipeline_safety_witness :
    ((4 : Nat) ∣ b64dict.indexOf
        ((b64encode ([97] ++ [32])).getD ((b64encode ([97] ++ [32])).indexOf 61 - 1) 0) ∧
      b64dict.indexOf
        ((b64encode ([97] ++ [32])).getD ((b64encode ([97] ++ [32])).indexOf 61 - 1) 0) ≤ 60) ∧
    (encode_word (b64encode ([97] ++ [32])) [48, 49]).isSome = true :=
  ⟨(encode_pipeline_safety (by decide)).1 (by decide),
    (encode_pipeline_safety (by decide)).2.2 [48, 49] (by decide) (by decide) (by decide)⟩
